import Mathlib

/-!
Verification of the beautysh Bash formatter against its specification.

The development shallowly embeds the formatter's core string algorithms:

* the line-based engine (beautysh/formatter.py with beautysh/parser.py,
  beautysh/transformers.py and the regex tables in beautysh/constants.py),
  which is the engine driven by the CLI (beautysh/cli.py); and
* the pieces of the AST engine that the claims mention: the heredoc
  preprocessor of beautysh/grammar/bash.py and the heredoc/parameter
  rendering of beautysh/visitors/formatter.py.

All text is modelled as List Char.  Each Python regular-expression
operation used by the source is embedded as a dedicated scanner that
reproduces the leftmost, non-overlapping, greedy/lazy-with-backtracking
semantics of the concrete pattern it stands for.  The relevant pattern is
quoted in the doc comment of every scanner.
-/

namespace Beautysh

/-- Python str whitespace (ASCII part), as used by strip/rstrip and regex \s. -/
def isPySpace (c : Char) : Bool :=
  c = ' ' || c = '\t' || c = '\n' || c = '\r' || c = '\x0b' || c = '\x0c'

/-- Regex word character \w (ASCII): letters, digits, underscore. -/
def isWordC (c : Char) : Bool :=
  c.isAlphanum || c = '_'

/-- Leading character of a simple variable name: [a-zA-Z_]. -/
def isAlphaUs (c : Char) : Bool :=
  c.isAlpha || c = '_'

/-- Character class [\w:@-] used by the function-style patterns. -/
def isFnNameC (c : Char) : Bool :=
  isWordC c || c = ':' || c = '@' || c = '-'

/-- Character class [_|\w] used by the heredoc-terminator pattern. -/
def isTermNameC (c : Char) : Bool :=
  isWordC c || c = '|'

/-- Python str.split("\n"): splitting on a newline separator; the empty
string yields a single empty piece. -/
def splitNl : List Char → List (List Char)
  | [] => [[]]
  | c :: rest =>
    if c = '\n' then [] :: splitNl rest
    else
      match splitNl rest with
      | [] => [[c]]
      | h :: t => (c :: h) :: t

/-- Python "\n".join. -/
def joinNl : List (List Char) → List Char
  | [] => []
  | [l] => l
  | l :: rest => l ++ '\n' :: joinNl rest

/-- Python str.lstrip(). -/
def pyLstrip (l : List Char) : List Char :=
  l.dropWhile isPySpace

/-- Python str.rstrip(). -/
def pyRstrip (l : List Char) : List Char :=
  (l.reverse.dropWhile isPySpace).reverse

/-- Python str.strip(). -/
def pyStrip (l : List Char) : List Char :=
  pyLstrip (pyRstrip l)

/-- Python substring containment (pat in l). -/
def hasInfix (l pat : List Char) : Bool :=
  if pat.isPrefixOf l then true
  else
    match l with
    | [] => false
    | _ :: rest => hasInfix rest pat

/-- Split a list at the first occurrence of a character, returning the
part before it and the part after it (the character itself dropped). -/
def breakAtFirst (c : Char) : List Char → Option (List Char × List Char)
  | [] => none
  | x :: rest =>
    if x = c then some ([], rest)
    else (breakAtFirst c rest).map (fun p => (x :: p.1, p.2))

/-- Embeds re.sub of the two-character literal pattern for an escaped
quote (patterns ESCAPED_SINGLE_QUOTE and ESCAPED_DOUBLE_QUOTE) with empty
replacement: every occurrence of the pair a b is removed. -/
def removePair (a b : Char) : List Char → List Char
  | [] => []
  | [c] => [c]
  | c :: d :: rest =>
    if c = a ∧ d = b then removePair a b rest
    else c :: removePair a b (d :: rest)

/-!  Several scanners below consume a variable number of characters per
step (skipping past a matched span).  To keep every definition
kernel-reducible they recurse structurally on a fuel argument; every step
consumes at least one character of the remaining input, so fuel equal to
the input length is always sufficient, and the public wrappers supply it.
An exhausted-fuel step returns the remaining input unchanged (it is
unreachable under the wrappers). -/

/-- Embeds re.sub of a lazy quoted-span pattern such as SINGLE_QUOTED_STRING,
DOUBLE_QUOTED_STRING or BACKTICK_STRING (opening char, minimal run of
arbitrary characters, closing char) with empty replacement. -/
def collapseBetweenGo (oc cc : Char) : Nat → List Char → List Char
  | _, [] => []
  | 0, l => l
  | fuel + 1, x :: rest =>
    if x = oc then
      match breakAtFirst cc rest with
      | some p => collapseBetweenGo oc cc fuel p.2
      | none => x :: collapseBetweenGo oc cc fuel rest
    else x :: collapseBetweenGo oc cc fuel rest

/-- Wrapper supplying sufficient fuel. -/
def collapseBetween (oc cc : Char) (l : List Char) : List Char :=
  collapseBetweenGo oc cc l.length l

/-- Embeds re.sub of WEIRD_BACKTICK_STRING (backslash-backtick opener, lazy
run, single-quote closer) with empty replacement. -/
def collapseWeirdGo : Nat → List Char → List Char
  | _, [] => []
  | _, [x] => [x]
  | 0, l => l
  | fuel + 1, x :: y :: rest =>
    if x = '\\' ∧ y = '`' then
      match breakAtFirst '\'' rest with
      | some p => collapseWeirdGo fuel p.2
      | none => x :: collapseWeirdGo fuel (y :: rest)
    else x :: collapseWeirdGo fuel (y :: rest)

/-- Wrapper supplying sufficient fuel. -/
def collapseWeird (l : List Char) : List Char :=
  collapseWeirdGo l.length l

/-- Embeds re.sub of ESCAPED_CHAR (a backslash followed by any character
other than a newline) with empty replacement. -/
def removeEscaped : List Char → List Char
  | [] => []
  | [x] => [x]
  | x :: y :: rest =>
    if x = '\\' ∧ y ≠ '\n' then removeEscaped rest
    else x :: removeEscaped (y :: rest)

/-- Helper for removeComment: scan for a whitespace character directly
followed by a hash and cut there. -/
def removeCommentAux : List Char → List Char
  | [] => []
  | [x] => [x]
  | x :: y :: rest =>
    if isPySpace x ∧ y = '#' then []
    else x :: removeCommentAux (y :: rest)

/-- Embeds re.sub of COMMENT (a hash at the start of the line or preceded
by whitespace, through the end of the line) with empty replacement,
count 1. -/
def removeComment (l : List Char) : List Char :=
  match l with
  | [] => []
  | c :: _ => if c = '#' then [] else removeCommentAux l

/-- BashParser.get_test_record: the quote/escape/comment collapsing pipeline
that produces the simplified line used for indentation analysis. -/
def getTestRecord (l : List Char) : List Char :=
  removeComment (removeEscaped (collapseWeird (collapseBetween '`' '`'
    (collapseBetween '"' '"' (collapseBetween '\'' '\''
      (removePair '\\' '"' (removePair '\\' '\'' l)))))))

/-!  Keyword findall counters.

INDENT_INCREASE_KEYWORDS and INDENT_DECREASE_KEYWORDS are alternations of
the shape (left)(keyword)(right) where left is a whitespace character, the
start of the string, or a semicolon, and right is a small set of
single-character alternatives, the end of the string, or whitespace.
len(findall(...)) counts the leftmost non-overlapping matches, resuming
after each consumed match.  The scanners below reproduce the ordered
alternation with backtracking across the keyword and right-group choices.
-/

/-- Right group (;|\Z|\s) of INDENT_INCREASE_KEYWORDS: number of characters
it consumes, or none. -/
def g3Inc : List Char → Option Nat
  | [] => some 0
  | c :: _ => if c = ';' then some 1 else if isPySpace c then some 1 else none

/-- Right group (;|\)|\||\Z|\s) of INDENT_DECREASE_KEYWORDS. -/
def g3Dec : List Char → Option Nat
  | [] => some 0
  | c :: _ =>
    if c = ';' ∨ c = ')' ∨ c = '|' then some 1
    else if isPySpace c then some 1 else none

/-- Try the keyword alternatives in order at the current position; on a
keyword whose right group fails, backtrack to the next keyword.  Returns
the number of characters consumed by keyword plus right group. -/
def tryKwTail (g3 : List Char → Option Nat) : List (List Char) → List Char → Option Nat
  | [], _ => none
  | kw :: kws, l =>
    if kw.isPrefixOf l then
      match g3 (l.drop kw.length) with
      | some n => some (kw.length + n)
      | none => tryKwTail g3 kws l
    else tryKwTail g3 kws l

/-- Try the left group alternatives (\s|\A|;) in order at the current
position, then keyword and right group; returns total characters consumed. -/
def tryKwAt (g3 : List Char → Option Nat) (kws : List (List Char)) (isStart : Bool)
    (l : List Char) : Option Nat :=
  (match l with
   | c :: rest => if isPySpace c then (tryKwTail g3 kws rest).map (· + 1) else none
   | [] => none) <|>
  (if isStart then tryKwTail g3 kws l else none) <|>
  (match l with
   | c :: rest => if c = ';' then (tryKwTail g3 kws rest).map (· + 1) else none
   | [] => none)

/-- Count leftmost non-overlapping matches, resuming after each match.
Every match consumes at least one character beyond the current position
(the keyword itself is at least two characters long), so the scan resumes
at rest.drop (n - 1). -/
def countKwGo (g3 : List Char → Option Nat) (kws : List (List Char)) :
    Nat → Bool → List Char → Nat
  | _, _, [] => 0
  | 0, _, _ => 0
  | fuel + 1, isStart, c :: rest =>
    match tryKwAt g3 kws isStart (c :: rest) with
    | some n => 1 + countKwGo g3 kws fuel false (rest.drop (n - 1))
    | none => countKwGo g3 kws fuel false rest

/-- len(INDENT_INCREASE_KEYWORDS.findall(test)). -/
def countIncKeywords (l : List Char) : Nat :=
  countKwGo g3Inc ["case".data, "then".data, "do".data] l.length true l

/-- len(INDENT_DECREASE_KEYWORDS.findall(test)). -/
def countDecKeywords (l : List Char) : Nat :=
  countKwGo g3Dec ["esac".data, "fi".data, "done".data, "elif".data] l.length true l

/-- Count of characters from a set (used for the bracket findall counts,
whose patterns are single-character alternations). -/
def countCharIn (l : List Char) (cs : List Char) : Nat :=
  (l.filter (fun c => cs.contains c)).length

/-- ESAC_KEYWORD_PATTERN search: word-boundary esac word-boundary.  The
Boolean argument records whether the previous character is a word
character. -/
def searchEsac : Bool → List Char → Bool
  | _, [] => false
  | prevW, c :: rest =>
    if !prevW && "esac".data.isPrefixOf (c :: rest) &&
        (match (c :: rest).drop 4 with
         | [] => true
         | d :: _ => !isWordC d) then
      true
    else searchEsac (isWordC c) rest

/-- Helper: the literal case followed by a whitespace character starts
here. -/
def caseThenWs (l : List Char) : Bool :=
  "case".data.isPrefixOf l &&
    (match l.drop 4 with
     | d :: _ => isPySpace d
     | [] => false)

/-- CASE_KEYWORD_PATTERN search: (\s|\A|;)case\s. -/
def searchCaseKw : Bool → List Char → Bool
  | isStart, [] => isStart && caseThenWs []
  | isStart, c :: rest =>
    (isStart && caseThenWs (c :: rest)) ||
    ((isPySpace c || c == ';') && caseThenWs rest) ||
    searchCaseKw false rest

/-- Helper for CASE_CHOICE_PATTERN: from position one onward, a closing
parenthesis is found before any opening parenthesis. -/
def choiceAux : List Char → Bool
  | [] => false
  | c :: rest =>
    if c = ')' then true else if c = '(' then false else choiceAux rest

/-- CASE_CHOICE_PATTERN search: \A[^(]+\) anchored at the start: at least
one leading character that is not an opening parenthesis, then a closing
parenthesis. -/
def searchCaseChoice : List Char → Bool
  | [] => false
  | c :: rest => c != '(' && choiceAux rest

/-- Helper: after the semicolon of the else/elif pattern, a nonempty
whitespace run directly followed by the literal then. -/
def thenAfterWs : List Char → Bool
  | [] => false
  | c :: rest =>
    if isPySpace c then thenAfterWs rest
    else "then".data.isPrefixOf (c :: rest)

/-- Helper: \s+?then, a nonempty whitespace run then the literal then. -/
def wsThen : List Char → Bool
  | [] => false
  | c :: rest => isPySpace c && thenAfterWs rest

/-- Helper: .*?;\s+?then, some semicolon followed by wsThen. -/
def elifTail : List Char → Bool
  | [] => false
  | c :: rest => (c == ';' && wsThen rest) || elifTail rest

/-- ELSE_ELIF_PATTERN search: ^(else|elif\s.*?;\s+?then). -/
def searchElseElif (l : List Char) : Bool :=
  "else".data.isPrefixOf l ||
    ("elif".data.isPrefixOf l &&
      (match l.drop 4 with
       | c :: rest => isPySpace c && elifTail (c :: rest)
       | [] => false))

/-- Helper: skip a whitespace run, then require the given literal word. -/
def wordAfterWs (w : List Char) : List Char → Bool
  | [] => w.isPrefixOf []
  | c :: rest =>
    if isPySpace c then wordAfterWs w rest
    else w.isPrefixOf (c :: rest)

/-- FORMATTER_OFF_DIRECTIVE / FORMATTER_ON_DIRECTIVE search: a hash,
optional whitespace, then the literal directive text. -/
def searchDirective (w : List Char) : List Char → Bool
  | [] => false
  | c :: rest => (c == '#' && wordAfterWs w rest) || searchDirective w rest

/-- Suffix after the first occurrence of a literal pattern, if any. -/
def dropThrough (pat : List Char) : List Char → Option (List Char)
  | [] => if pat.isPrefixOf ([] : List Char) then some [] else none
  | c :: rest =>
    if pat.isPrefixOf (c :: rest) then some ((c :: rest).drop pat.length)
    else dropThrough pat rest

/-- ARITHMETIC_PATTERN search: a dollar and two opening parentheses, later
a left shift, later two closing parentheses. -/
def hasArithShift (l : List Char) : Bool :=
  match dropThrough "$((".data l with
  | some t =>
    match dropThrough "<<".data t with
    | some u => hasInfix u "))".data
    | none => false
  | none => false

/-!  Heredoc terminator extraction.

HEREDOC_TERMINATOR is a full-line pattern: a greedy leading run, the
left-shift marker with optional dash, optional whitespace, an optional
quote-class character, a nonempty run from the class [_|\w] (captured),
an optional quote-class character and a greedy trailing run.  The sub
with replacement group one therefore replaces the whole line by the
capture of the rightmost left-shift marker whose tail admits a capture.
-/

/-- Parse the part of HEREDOC_TERMINATOR after the left-shift marker:
optional dash, whitespace run, optional quote-class character backing off
when no name character follows, then the maximal nonempty name run. -/
def termTail (l : List Char) : Option (List Char) :=
  let l1 := match l with
    | '-' :: rest => rest
    | _ => l
  let l2 := l1.dropWhile isPySpace
  match l2 with
  | [] => none
  | q :: rest =>
    if q = '\'' ∨ q = '|' ∨ q = '"' then
      let nm := rest.takeWhile isTermNameC
      if nm ≠ [] then some nm
      else if isTermNameC q then some [q] else none
    else
      let nm := l2.takeWhile isTermNameC
      if nm ≠ [] then some nm else none

/-- Scan for the rightmost left-shift marker whose tail parses, keeping
the latest successful capture. -/
def findLastTermGo (best : Option (List Char)) : List Char → Option (List Char)
  | [] => best
  | c :: rest =>
    let best' :=
      if "<<".data.isPrefixOf (c :: rest) then
        match termTail ((c :: rest).drop 2) with
        | some nm => some nm
        | none => best
      else best
    findLastTermGo best' rest

/-- BashParser.detect_heredoc: heredoc present and neither a here-string
nor an arithmetic shift; the terminator is the HEREDOC_TERMINATOR sub of
the stripped line (the stripped line itself when the pattern does not
match), and the detection holds when that string is nonempty. -/
def detectHeredoc (test stripped : List Char) : Bool × List Char :=
  if hasInfix test "<<".data && !(hasInfix test "<<<".data) && !(hasArithShift test) then
    let hs := (findLastTermGo none stripped).getD stripped
    (hs ≠ [], hs)
  else (false, [])

/-- BashParser.is_heredoc_quoted: the left-shift marker, optional dash and
whitespace, then either a quote character or a nonempty-or-empty run of
non-whitespace characters ending in a backslash. -/
def isHeredocQuotedAt (l : List Char) : Bool :=
  let l1 := match l with
    | '-' :: rest => rest
    | _ => l
  let l2 := l1.dropWhile isPySpace
  match l2 with
  | [] => false
  | q :: _ =>
    if q = '\'' ∨ q = '"' then true
    else backslashBeforeWs l2
where
  /-- A backslash occurs before the first whitespace character. -/
  backslashBeforeWs : List Char → Bool
    | [] => false
    | c :: rest =>
      if c = '\\' then true
      else if isPySpace c then false
      else backslashBeforeWs rest

/-- BashParser.is_heredoc_quoted search over the whole line. -/
def isHeredocQuoted : List Char → Bool
  | [] => false
  | c :: rest =>
    (("<<".data.isPrefixOf (c :: rest)) && isHeredocQuotedAt ((c :: rest).drop 2)) ||
    isHeredocQuoted rest

/-- BashParser.detect_unclosed_quote: odd counts of double and single
quotes left after get_test_record collapsed the closed ones. -/
def detectUnclosedQuote (test : List Char) : Bool × Bool :=
  (test.count '"' % 2 = 1, test.count '\'' % 2 = 1)

/-- BashParser.is_line_continuation: the line ends with a backslash. -/
def isLineContinuation (l : List Char) : Bool :=
  l.getLast? = some '\\'

/-!  Function-style patterns.

The three FUNCTION_STYLE_PATTERNS are embedded as matchers that, at a
given position, return the captured name and the number of characters
consumed.  All runs are maximal: backing off a greedy run can never help
because the character handed back never belongs to the class that has to
match next.  The word boundary is evaluated against the previous
character, threaded by the scanning wrappers.
-/

/-- Match function-style pattern zero at the current position:
word-boundary, the literal function, nonempty whitespace, a name from
[\w:@-], optional whitespace, parentheses pair with optional interior
whitespace, trailing optional whitespace. -/
def matchP0 (l : List Char) : Option (List Char × Nat) :=
  if "function".data.isPrefixOf l then
    let r1 := l.drop 8
    let r2 := r1.dropWhile isPySpace
    if r2.length = r1.length then none
    else
      let nm := r2.takeWhile isFnNameC
      if nm = [] then none
      else
        let r3 := (r2.drop nm.length).dropWhile isPySpace
        match r3 with
        | '(' :: r4 =>
          match r4.dropWhile isPySpace with
          | ')' :: r6 =>
            let r7 := r6.dropWhile isPySpace
            some (nm, l.length - r7.length)
          | _ => none
        | _ => none
  else none

/-- Match function-style pattern one: word-boundary, the literal function,
nonempty whitespace, a name, trailing optional whitespace. -/
def matchP1 (l : List Char) : Option (List Char × Nat) :=
  if "function".data.isPrefixOf l then
    let r1 := l.drop 8
    let r2 := r1.dropWhile isPySpace
    if r2.length = r1.length then none
    else
      let nm := r2.takeWhile isFnNameC
      if nm = [] then none
      else
        let r3 := (r2.drop nm.length).dropWhile isPySpace
        some (nm, l.length - r3.length)
  else none

/-- Match function-style pattern two: word-boundary, optional whitespace,
a name, optional whitespace, parentheses pair with optional interior
whitespace, trailing optional whitespace. -/
def matchP2 (l : List Char) : Option (List Char × Nat) :=
  let r2 := l.dropWhile isPySpace
  let nm := r2.takeWhile isFnNameC
  if nm = [] then none
  else
    let r3 := (r2.drop nm.length).dropWhile isPySpace
    match r3 with
    | '(' :: r4 =>
      match r4.dropWhile isPySpace with
      | ')' :: r6 =>
        let r7 := r6.dropWhile isPySpace
        some (nm, l.length - r7.length)
      | _ => none
    | _ => none

/-- Word boundary test for a pattern starting at the head of l, given
whether the previous character is a word character. -/
def boundaryOk (prevW : Bool) : List Char → Bool
  | [] => prevW
  | c :: _ => prevW != isWordC c

/-- Position matcher for a style index: patterns zero and one start with a
word character, so the boundary reduces to the previous character not
being one; pattern two checks the full boundary before its whitespace
run. -/
def matchStyleAt (style : Fin 3) (prevW : Bool) (l : List Char) :
    Option (List Char × Nat) :=
  match style with
  | 0 => if prevW then none else matchP0 l
  | 1 => if prevW then none else matchP1 l
  | 2 => if boundaryOk prevW l then matchP2 l else none

/-- re.search for a function-style pattern: try every position left to
right, tracking the word-character status of the previous character. -/
def fnSearchGo (style : Fin 3) : Bool → List Char → Bool
  | prevW, [] => (matchStyleAt style prevW []).isSome
  | prevW, c :: rest =>
    (matchStyleAt style prevW (c :: rest)).isSome || fnSearchGo style (isWordC c) rest

/-- The FUNCTION_STYLE_REPLACEMENTS, as functions of the captured name. -/
def styleReplacement (style : Fin 3) (nm : List Char) : List Char :=
  match style with
  | 0 => "function ".data ++ nm ++ "() ".data
  | 1 => "function ".data ++ nm ++ " ".data
  | 2 => nm ++ "() ".data

/-- re.sub for a function-style pattern: replace every non-overlapping
leftmost match; scanning resumes after the consumed span, whose last
character supplies the next word-boundary context.  A match always
consumes at least the one-character name, so the scan resumes at
rest.drop (n - 1). -/
def fnSubGo (detected target : Fin 3) : Nat → Bool → List Char → List Char
  | _, _, [] => []
  | 0, _, l => l
  | fuel + 1, prevW, c :: rest =>
    match matchStyleAt detected prevW (c :: rest) with
    | some (nm, n) =>
      let consumed := (c :: rest).take n
      let prevW' := match consumed.getLast? with
        | some d => isWordC d
        | none => prevW
      styleReplacement target nm ++ fnSubGo detected target fuel prevW' (rest.drop (n - 1))
    | none => c :: fnSubGo detected target fuel (isWordC c) rest

/-- BashParser.detect_function_style: the three patterns are tried in
order and the first that matches anywhere in the line wins. -/
def detectFunctionStyle (test : List Char) : Option (Fin 3) :=
  if fnSearchGo 0 false test then some 0
  else if fnSearchGo 1 false test then some 1
  else if fnSearchGo 2 false test then some 2
  else none

/-- StyleTransformer.change_function_style: substitute the detected
pattern with the replacement of the target style and strip the result;
with no detected style or no target style the line is unchanged. -/
def changeFunctionStyle (stripped : List Char) (detected : Option (Fin 3))
    (target : Option (Fin 3)) : List Char :=
  match detected, target with
  | none, _ => stripped
  | _, none => stripped
  | some d, some t => pyStrip (fnSubGo d t stripped.length false stripped)

/-- StyleTransformer.ensure_space_before_double_semicolon: the sub of the
pattern for a non-whitespace character directly followed by two
semicolons, inserting a space; scanning resumes after each consumed
three-character match. -/
def spaceSemisFix : List Char → List Char
  | [] => []
  | [a] => [a]
  | [a, b] => [a, b]
  | a :: b :: c :: rest =>
    if !isPySpace a && b = ';' && c = ';' then
      a :: ' ' :: ';' :: ';' :: spaceSemisFix rest
    else a :: spaceSemisFix (b :: c :: rest)

/-- The SIMPLE_VARIABLE sub: a dollar not followed by an opening brace,
then a name led by a letter or underscore, is wrapped in braces.  The name
run is maximal, which settles the trailing word boundary. -/
def simpleVarSubGo : Nat → List Char → List Char
  | _, [] => []
  | 0, l => l
  | fuel + 1, c :: rest =>
    if c = '$' then
      match rest with
      | [] => [c]
      | d :: ds =>
        if d = '{' then c :: simpleVarSubGo fuel (d :: ds)
        else if isAlphaUs d then
          let nm := (d :: ds).takeWhile isWordC
          '$' :: '{' :: (nm ++ '}' :: simpleVarSubGo fuel ((d :: ds).drop nm.length))
        else c :: simpleVarSubGo fuel (d :: ds)
    else c :: simpleVarSubGo fuel rest

/-- Wrapper supplying sufficient fuel. -/
def simpleVarSub (l : List Char) : List Char :=
  simpleVarSubGo l.length l

/-- StyleTransformer.apply_variable_style: the braces style applies the
SIMPLE_VARIABLE sub, any other style leaves the line unchanged. -/
def applyVariableStyle (style : Option String) (l : List Char) : List Char :=
  if style = some "braces" then simpleVarSub l else l

/-- Every dollar sign of the line is immediately followed by an opening
brace — every parameter expansion is already braced, so the negative
lookahead of SIMPLE_VARIABLE rejects every dollar of the line. -/
def noUnbracedDollar : List Char → Bool
  | [] => true
  | c :: rest =>
    if c = '$' then
      match rest with
      | d :: _ => d = '{' && noUnbracedDollar rest
      | [] => false
    else noUnbracedDollar rest

/-- Prefix of the line before its last double quote. -/
def beforeLastQuote (l : List Char) : List Char :=
  ((l.reverse.dropWhile (fun c => c ≠ '"')).drop 1).reverse

/-- MULTILINE_STRING_START subn: the pattern (a double quote, a lazy run
without double quotes, a backslash at the end of the line) matches exactly
when the line ends with a backslash and contains a double quote; the
single match runs from the last double quote to the end. -/
def multilineStartSubn (l : List Char) : List Char × Nat :=
  if l.getLast? = some '\\' ∧ l.contains '"' then (beforeLastQuote l, 1)
  else (l, 0)

/-- MULTILINE_STRING_END subn: the anchored pattern (line start, a run
without double quotes, a double quote) matches exactly when the line
contains a double quote; the match removes everything through the first
double quote. -/
def multilineEndSubn (l : List Char) : List Char × Nat :=
  if l.contains '"' then ((l.dropWhile (fun c => c ≠ '"')).drop 1, 1)
  else (l, 0)

/-!  Do-case line normalization. -/

/-- Helper: optional whitespace, then the literal case followed by a
whitespace character. -/
def caseAfterWs : List Char → Bool
  | [] => false
  | c :: rest =>
    if isPySpace c then caseAfterWs rest
    else caseThenWs (c :: rest)

/-- Helper: the do or then keyword, nonempty whitespace, then case and a
whitespace character. -/
def doCaseTail (l : List Char) : Bool :=
  (("do".data.isPrefixOf l) && wsCase (l.drop 2)) ||
  (("then".data.isPrefixOf l) && wsCase (l.drop 4))
where
  /-- Nonempty whitespace run then case and whitespace. -/
  wsCase : List Char → Bool
    | [] => false
    | c :: rest => isPySpace c && caseAfterWs rest

/-- DO_CASE_PATTERN search: (\s|\A|;)(do|then)(\s+)(case\s). -/
def doCaseSearch : Bool → List Char → Bool
  | isStart, [] => isStart && doCaseTail []
  | isStart, c :: rest =>
    (isStart && doCaseTail (c :: rest)) ||
    ((isPySpace c || c == ';') && doCaseTail rest) ||
    doCaseSearch false rest

/-- CASE_SPLIT_PATTERN match.start(2): the index of the case keyword of
the leftmost match of (\s+)(case\s); each candidate whitespace run is
maximal since the keyword cannot begin with whitespace. -/
def caseSplitGo (idx : Nat) : List Char → Option Nat
  | [] => none
  | c :: rest =>
    if isPySpace c then
      let run := (c :: rest).takeWhile isPySpace
      if caseThenWs ((c :: rest).drop run.length) then some (idx + run.length)
      else caseSplitGo (idx + 1) rest
    else caseSplitGo (idx + 1) rest

/-- BashParser.normalize_do_case_lines, per line: when the test record has
a do-case or then-case juncture and the raw line has a whitespace-case
split point, the line becomes two lines, split before the case keyword. -/
def normLine (l : List Char) : List (List Char) :=
  if doCaseSearch true (getTestRecord l) then
    match caseSplitGo 0 l with
    | some q => [pyRstrip (l.take q), l.drop q]
    | none => [l]
  else [l]

/-- BashParser.normalize_do_case_lines over the whole source. -/
def normalizeDoCaseLines (l : List Char) : List Char :=
  joinNl ((splitNl l).map normLine).flatten

/-!  The formatter state and the line-by-line engine
(BashFormatter in beautysh/formatter.py, state in beautysh/types.py). -/

/-- FormatterState from beautysh/types.py.  Python integers are modelled
as Int; the truthiness tests on case_level and open_brackets compare with
zero. -/
structure FormatterState where
  tab : Int := 0
  caseLevel : Int := 0
  prevLineHadContinue : Bool := false
  continueLine : Bool := false
  startedMultilineQuotedString : Bool := false
  endedMultilineQuotedString : Bool := false
  openBrackets : Int := 0
  inHereDoc : Bool := false
  inMultilineString : Bool := false
  multilineStringQuoteChar : Option Char := none
  hereString : List Char := []
  formatterEnabled : Bool := true
  deriving Repr, DecidableEq

/-- The configuration of BashFormatter: indent size, indent string, forced
function style and forced variable style. -/
structure Config where
  indentSize : Nat := 4
  tabStr : List Char := [' ']
  applyFunctionStyle : Option (Fin 3) := none
  variableStyle : Option String := none

/-- The default configuration of the CLI. -/
def defaultConfig : Config := {}

/-- BashFormatter._indent_line: the indent string repeated
indent_size times level, prepended to the line; a non-positive level
yields no indentation. -/
def indentLine (cfg : Config) (level : Int) (line : List Char) : List Char :=
  (List.replicate (cfg.indentSize * level.toNat) cfg.tabStr).flatten ++ line

/-- BashFormatter._handle_multiline_string_content: pass the line through
unchanged; when the line holds an odd number of the opening quote
character, the multiline string closes. -/
def handleMultilineContent (record stripped : List Char) (st : FormatterState) :
    List Char × FormatterState :=
  match st.multilineStringQuoteChar with
  | some q =>
    if stripped.contains q ∧ stripped.count q % 2 = 1 then
      (record, { st with inMultilineString := false, multilineStringQuoteChar := none })
    else (record, st)
  | none => (record, st)

/-- BashFormatter._format_line: keyword counting, case tracking, function
style transformation, else/elif adjustment and the net indentation
update. -/
def formatLine (cfg : Config) (stripped test : List Char) (st : FormatterState) :
    List Char × FormatterState :=
  let inc0 := countIncKeywords test + countCharIn test ['{', '(', '[']
  let outc0 := countDecKeywords test + countCharIn test ['}', ')', ']']
  let (outc1, cl1) :=
    if searchEsac false test then
      if st.caseLevel = 0 then (outc0, st.caseLevel)
      else (outc0 + 1, st.caseLevel - 1)
    else (outc0, st.caseLevel)
  let (inc1, cl2) :=
    if searchCaseKw true test then (inc0 + 1, cl1 + 1) else (inc0, cl1)
  let (inc2, choiceCase) :=
    if cl2 ≠ 0 ∧ searchCaseChoice test then (inc1 + 1, (-1 : Int)) else (inc1, 0)
  let stripped' :=
    match detectFunctionStyle test with
    | some d => changeFunctionStyle stripped (some d) cfg.applyFunctionStyle
    | none => stripped
  let elseCase : Int := if searchElseElif test then -1 else 0
  let net : Int := (inc2 : Int) - (outc1 : Int)
  let tab1 := st.tab + min net 0
  let extab0 := tab1 + elseCase + choiceCase
  let extab1 :=
    if st.prevLineHadContinue ∧ st.openBrackets = 0 ∧ ¬st.endedMultilineQuotedString then
      extab0 + 1
    else extab0
  let extab := max 0 extab1
  (indentLine cfg extab stripped', { st with tab := tab1 + max net 0, caseLevel := cl2 })

/-- The tail of BashFormatter._process_line after the heredoc detection:
the formatter directives, the open-bracket pass-through, and otherwise the
formatted line with the square-bracket counter update. -/
def processLineTail (cfg : Config) (record stripped test1 : List Char)
    (st6 : FormatterState) : List Char × FormatterState :=
  if ¬st6.formatterEnabled then
    let st7 :=
      if searchDirective "@formatter:on".data stripped then
        { st6 with formatterEnabled := true }
      else st6
    (record, st7)
  else if searchDirective "@formatter:off".data stripped then
    (record, { st6 with formatterEnabled := false })
  else if st6.openBrackets ≠ 0 then (record, st6)
  else
    let fm := formatLine cfg stripped test1 st6
    let st8 := { fm.2 with
      openBrackets := fm.2.openBrackets
        + (countCharIn test1 ['['] : Int) - (countCharIn test1 [']'] : Int) }
    (fm.1, st8)

/-- The middle of BashFormatter._process_line after the continuation
flags are computed: the heredoc and multiline-quoted pass-through with
the terminator test, the started-multiline flag and the heredoc
detection. -/
def processLineMid (cfg : Config) (record stripped test1 : List Char)
    (prev cont insideMq : Bool) (st3 : FormatterState) :
    List Char × FormatterState :=
  if st3.inHereDoc || insideMq || st3.endedMultilineQuotedString then
    let st4 :=
      if hasInfix test1 st3.hereString && !hasInfix test1 "<<".data then
        { st3 with inHereDoc := false }
      else st3
    (record, st4)
  else
    let st5 :=
      if cont then
        if prev then { st3 with startedMultilineQuotedString := false }
        else
          { st3 with
            startedMultilineQuotedString := (multilineStartSubn test1).2 > 0 }
      else { st3 with startedMultilineQuotedString := false }
    let hd := detectHeredoc test1 stripped
    let st6 :=
      if hd.1 then { st5 with inHereDoc := true, hereString := hd.2 } else st5
    processLineTail cfg record stripped test1 st6

/-- The middle of BashFormatter._process_line: continuation tracking and
the end-of-multiline-quoted-string substitution, then processLineMid. -/
def processLineMain (cfg : Config) (record stripped test0 : List Char)
    (st : FormatterState) : List Char × FormatterState :=
  let prev := st.continueLine
  let cont := isLineContinuation stripped
  let st2 := { st with prevLineHadContinue := prev, continueLine := cont }
  let insideMq := prev && cont && st2.startedMultilineQuotedString
  let ts3 :=
    if !cont && prev && st2.startedMultilineQuotedString then
      let sn := multilineEndSubn test0
      (sn.1, { st2 with endedMultilineQuotedString := sn.2 > 0 })
    else (test0, { st2 with endedMultilineQuotedString := false })
  processLineMid cfg record stripped ts3.1 prev cont insideMq ts3.2

/-- The unclosed-quote test of BashFormatter._process_line: a line whose
test record holds an odd number of double or single quotes starts a
multiline string; otherwise the main path runs. -/
def processLineQuote (cfg : Config) (record stripped test0 : List Char)
    (st : FormatterState) : List Char × FormatterState :=
  if (detectUnclosedQuote test0).1 || (detectUnclosedQuote test0).2 then
    let st1 := { st with
      inMultilineString := true
      multilineStringQuoteChar :=
        some (if (detectUnclosedQuote test0).1 then '"' else '\'') }
    (indentLine cfg st.tab stripped, st1)
  else processLineMain cfg record stripped test0 st

/-- BashFormatter._process_line: processing of one line, returning the
output line and the updated state.  The structure mirrors the source:
right strip; blank lines preserved; the double-semicolon fix inside case;
multiline-string tracking; then processLineMain and processLineTail. -/
def processLine (cfg : Config) (st : FormatterState) (record0 : List Char) :
    List Char × FormatterState :=
  let record := pyRstrip record0
  let stripped0 := pyStrip record
  if stripped0 = [] then (stripped0, st)
  else
    let stripped := if st.caseLevel ≠ 0 then spaceSemisFix stripped0 else stripped0
    let test0 := getTestRecord stripped
    if st.inMultilineString then
      handleMultilineContent record stripped st
    else processLineQuote cfg record stripped test0 st

/-- The loop of BashFormatter.beautify_string: process every line, apply
the variable style to every emitted line, and thread the state. -/
def processAll (cfg : Config) : FormatterState → List (List Char) →
    List (List Char) × FormatterState
  | st, [] => ([], st)
  | st, r :: rest =>
    let pr := processLine cfg st r
    let o := applyVariableStyle cfg.variableStyle pr.1
    let ps := processAll cfg pr.2 rest
    (o :: ps.1, ps.2)

/-- BashFormatter.beautify_string: normalize do-case lines, process each
line, join with newlines; the error flag is a final nonzero indentation
level. -/
def beautifyString (cfg : Config) (data : String) : String × Bool :=
  let lines := splitNl (normalizeDoCaseLines data.data)
  let pr := processAll cfg {} lines
  (String.mk (joinNl pr.1), pr.2.tab ≠ 0)

/-!  The heredoc preprocessor of the AST engine
(function _preprocess_heredocs in beautysh/grammar/bash.py). -/

/-- The delimiter name led by its first character: either a quoted name
(with the closing quote checked, the backreference of the pattern) or a
bare name. -/
def heredocNameCons (strip : Bool) (q : Char) (rest' : List Char) :
    Option (Bool × List Char) :=
  if q = '\'' ∨ q = '"' then
    match rest' with
    | [] => none
    | d :: _ =>
      if isAlphaUs d then
        let nm := rest'.takeWhile isWordC
        match rest'.drop nm.length with
        | q2 :: _ => if q2 = q then some (strip, nm) else none
        | [] => none
      else none
  else if isAlphaUs q then some (strip, (q :: rest').takeWhile isWordC)
  else none

/-- The name part of the heredoc marker pattern, after the spaces-and-tabs
run. -/
def heredocNameAt (strip : Bool) : List Char → Option (Bool × List Char)
  | [] => none
  | q :: rest' => heredocNameCons strip q rest'

/-- Match the heredoc marker pattern of the preprocessor at the current
position: the left-shift marker (its lookbehind checked by the caller),
an optional dash, a run of spaces or tabs, and the name part.  Returns
the strip-tabs flag and the delimiter. -/
def heredocMarkerAt (l : List Char) : Option (Bool × List Char) :=
  if "<<".data.isPrefixOf l then
    let r0 := l.drop 2
    let strip := decide (r0.head? = some '-')
    let r1 := if strip then r0.tail else r0
    heredocNameAt strip (r1.dropWhile (fun c => c = ' ' ∨ c = '\t'))
  else none

/-- re.search for the heredoc marker: leftmost position whose lookbehind
(start of line, space, tab, or digit before the marker) is satisfied and
whose tail matches. -/
def heredocMarkerSearch (prev : Option Char) : List Char → Option (Bool × List Char)
  | [] => none
  | c :: rest =>
    let lookOk :=
      match prev with
      | none => true
      | some p => p = ' ' ∨ p = '\t' ∨ p.isDigit
    match (if lookOk then heredocMarkerAt (c :: rest) else none) with
    | some r => some r
    | none => heredocMarkerSearch (some c) rest

/-- Termination test of the preprocessor's collection loop: the line,
with leading tabs removed first when the strip-tabs flag is set, strips
to exactly the delimiter. -/
def heredocTermLine (strip : Bool) (delim line : List Char) : Bool :=
  pyStrip (if strip then line.dropWhile (fun c => c = '\t') else line) = delim

/-- The collection loop of the preprocessor: consume lines into the body
until a terminating line (dropped) is found or the input ends; returns
the body lines and the remaining lines. -/
def collectHeredoc (strip : Bool) (delim : List Char) :
    List (List Char) → List (List Char) × List (List Char)
  | [] => ([], [])
  | line :: rest =>
    if heredocTermLine strip delim line then ([], rest)
    else
      let r := collectHeredoc strip delim rest
      (line :: r.1, r.2)

/-- Python dict assignment on an association table: a later store for an
existing delimiter overwrites the earlier body (the collision noted in
the spec). -/
def tableInsert (tbl : List (List Char × List Char)) (k v : List Char) :
    List (List Char × List Char) :=
  match tbl with
  | [] => [(k, v)]
  | e :: rest => if e.1 = k then (k, v) :: rest else e :: tableInsert rest k v

/-- Association-table lookup. -/
def tableLookup (tbl : List (List Char × List Char)) (key : List Char) :
    Option (List Char) :=
  match tbl with
  | [] => none
  | e :: rest => if e.1 = key then some e.2 else tableLookup rest key

/-- The line scan of _preprocess_heredocs with the accumulated side
table: marker lines are kept, the body lines are excised and joined into
the table entry for the delimiter. -/
def preprocessHeredocsGo (acc : List (List Char × List Char)) :
    Nat → List (List Char) → List (List Char) × List (List Char × List Char)
  | _, [] => ([], acc)
  | 0, lines => (lines, acc)
  | fuel + 1, line :: rest =>
    match heredocMarkerSearch none line with
    | some sd =>
      let col := collectHeredoc sd.1 sd.2 rest
      let pr := preprocessHeredocsGo (tableInsert acc sd.2 (joinNl col.1)) fuel col.2
      (line :: pr.1, pr.2)
    | none =>
      let pr := preprocessHeredocsGo acc fuel rest
      (line :: pr.1, pr.2)

/-- The function _preprocess_heredocs: the preprocessed lines and the
delimiter-keyed side table of heredoc bodies. -/
def preprocessHeredocs (lines : List (List Char)) :
    List (List Char) × List (List Char × List Char) :=
  preprocessHeredocsGo [] lines.length lines

/-!  The heredoc and parameter-expansion rendering of the AST engine
(FormatterVisitor in beautysh/visitors/formatter.py). -/

/-- The variable-style selector of the visitor. -/
inductive VariableStyle where
  | braces
  deriving DecidableEq, Repr

/-- The HereDoc node of beautysh/ast/literals.py: delimiter, body content
filled by the second pass, strip-tabs flag and quoting of the
terminator. -/
structure HereDocNode where
  delimiter : List Char
  content : List Char
  stripTabs : Bool := false
  quoted : Bool := false
  quoteChar : Option Char := none
  deriving DecidableEq, Repr

/-- FormatterVisitor._is_special_param: the seven special single-character
parameters, and purely numeric positional parameters. -/
def isSpecialParam (name : List Char) : Bool :=
  name ∈ [['?'], ['@'], ['*'], ['#'], ['$'], ['!'], ['-']] ||
    (name ≠ [] && name.all Char.isDigit)

/-- FormatterVisitor._transform_variables_in_text: a dollar followed by a
letter-or-underscore-led name is brace-wrapped unless the name is a
special parameter (which the name class in fact excludes). -/
def transformVariablesGo : Nat → List Char → List Char
  | _, [] => []
  | 0, l => l
  | fuel + 1, c :: rest =>
    if c = '$' then
      match rest with
      | [] => [c]
      | d :: ds =>
        if isAlphaUs d then
          let nm := (d :: ds).takeWhile isWordC
          if isSpecialParam nm then
            ('$' :: nm) ++ transformVariablesGo fuel ((d :: ds).drop nm.length)
          else
            '$' :: '{' :: (nm ++ '}' :: transformVariablesGo fuel ((d :: ds).drop nm.length))
        else c :: transformVariablesGo fuel (d :: ds)
    else c :: transformVariablesGo fuel rest

/-- Wrapper supplying sufficient fuel. -/
def transformVariablesInText (l : List Char) : List Char :=
  transformVariablesGo l.length l

/-- FormatterVisitor._format_heredoc_content: the body, transformed when
the braces style is configured and the terminator was unquoted, followed
by the delimiter line. -/
def formatHeredocContent (style : Option VariableStyle) (hd : HereDocNode) :
    List Char :=
  let content :=
    if style = some .braces ∧ ¬hd.quoted then transformVariablesInText hd.content
    else hd.content
  content ++ '\n' :: hd.delimiter

/-- FormatterVisitor.visit_parameter_expansion: braces are forced for a
simple unbraced non-special expansion under the braces style; braced
expansions render their operator and argument (absence is modelled by the
empty string, matching Python falsiness). -/
def visitParameterExpansion (style : Option VariableStyle) (name : List Char)
    (braced : Bool) (operator argument : List Char) : List Char :=
  let forceBraces := style = some .braces ∧ ¬braced ∧ ¬isSpecialParam name
  if braced ∨ forceBraces then
    if operator ≠ [] ∧ argument ≠ [] then
      '$' :: '{' :: (name ++ operator ++ argument ++ ['}'])
    else if operator ≠ [] then
      '$' :: '{' :: (name ++ operator ++ ['}'])
    else
      '$' :: '{' :: (name ++ ['}'])
  else '$' :: name

/-!  The claim-three script family: a single cat command with one heredoc.
The preprocessor excises the body into the side table; the grammar then
parses only the remaining lines (the marker line and the trailing blank),
and the visitor re-emits the marker line followed by the filled body via
formatHeredocContent. -/

/-- The lines of the script cat heredoc-marker, body b, delimiter line. -/
def catHeredocScriptLines (b D : List Char) : List (List Char) :=
  ("cat <<".data ++ D) :: splitNl b ++ [D, []]

/-- The heredoc body captured by the preprocessor for this script. -/
def catHeredocBody (b D : List Char) : Option (List Char) :=
  tableLookup (preprocessHeredocs (catHeredocScriptLines b D)).2 D

/-- A valid heredoc delimiter name for the preprocessor pattern: led by a
letter or underscore, continued by word characters. -/
def isValidName (D : List Char) : Bool :=
  match D with
  | [] => false
  | d :: _ => isAlphaUs d && D.all isWordC

/-- A string ends with a newline character. -/
def endsWithNl (s : String) : Bool :=
  s.data.getLast? == some '\n'

/-- A line carries no trailing whitespace. -/
def NoTrailWs (l : List Char) : Prop :=
  ∀ c, l.getLast? = some c → isPySpace c = false

/-- A line consists of whitespace only. -/
def AllWs (l : List Char) : Prop :=
  ∀ c ∈ l, isPySpace c = true

/-!  Lemmas about the Python string helpers. -/

theorem pyRstrip_eq_rdropWhile (l : List Char) :
    pyRstrip l = l.rdropWhile isPySpace := rfl

theorem noTrailWs_pyRstrip (l : List Char) : NoTrailWs (pyRstrip l) := by
  intro c hc
  have hne : pyRstrip l ≠ [] := by
    intro h
    rw [h] at hc
    simp at hc
  rw [pyRstrip_eq_rdropWhile] at hne hc
  have hlast := List.rdropWhile_last_not (p := isPySpace) (l := l) hne
  rw [List.getLast?_eq_getLast _ hne] at hc
  have := Option.some_inj.mp hc
  simpa [← this] using hlast

theorem noTrailWs_of_suffix {l t : List Char} (h : NoTrailWs l) (hs : t <:+ l)
    (hne : t ≠ []) : NoTrailWs t := by
  intro c hc
  obtain ⟨a, rfl⟩ := hs
  exact h c (by rw [List.getLast?_append_of_ne_nil a hne]; exact hc)

theorem noTrailWs_pyStrip (l : List Char) : NoTrailWs (pyStrip l) := by
  by_cases hne : pyStrip l = []
  · intro c hc
    rw [hne] at hc
    simp at hc
  · exact noTrailWs_of_suffix (noTrailWs_pyRstrip l)
      (List.dropWhile_suffix isPySpace) hne

theorem noTrailWs_append {a b : List Char} (hb : b ≠ []) (h : NoTrailWs b) :
    NoTrailWs (a ++ b) := by
  intro c hc
  rw [List.getLast?_append_of_ne_nil a hb] at hc
  exact h c hc

theorem noTrailWs_drop {l : List Char} (k : Nat) (h : NoTrailWs l) :
    NoTrailWs (l.drop k) := by
  by_cases hne : l.drop k = []
  · intro c hc
    rw [hne] at hc
    simp at hc
  · exact noTrailWs_of_suffix h (List.drop_suffix k l) hne

theorem noTrailWs_tail {c : Char} {l : List Char} (h : NoTrailWs (c :: l))
    (hne : l ≠ []) : NoTrailWs l :=
  noTrailWs_of_suffix h ⟨[c], rfl⟩ hne

theorem getLast?_cons_ne {α : Type} {a : α} {l : List α} (h : l ≠ []) :
    (a :: l).getLast? = l.getLast? := by
  cases l with
  | nil => exact absurd rfl h
  | cons x xs => exact List.getLast?_cons_cons ..

theorem getLast?_ne_none {α : Type} {l : List α} (h : l ≠ []) :
    l.getLast? ≠ none := by
  intro hc
  exact h (List.getLast?_eq_none_iff.mp hc)

theorem getLast?_spaceSemisFix (l : List Char) :
    (spaceSemisFix l).getLast? = l.getLast? := by
  induction l using spaceSemisFix.induct with
  | case1 => rfl
  | case2 a => rfl
  | case3 a b => rfl
  | case4 a b c rest hm ih =>
    have hm' := hm
    simp only [Bool.and_eq_true, Bool.not_eq_true', decide_eq_true_eq] at hm'
    obtain ⟨⟨ha, hb⟩, hc⟩ := hm'
    subst hb; subst hc
    rw [spaceSemisFix, if_pos hm]
    cases hrest : rest with
    | nil =>
      subst hrest
      rfl
    | cons x xs =>
      subst hrest
      have hne : spaceSemisFix (x :: xs) ≠ [] := by
        intro hfix
        rw [hfix] at ih
        exact getLast?_ne_none (by simp) ih.symm
      simp only [List.getLast?_cons_cons]
      rw [getLast?_cons_ne hne, ih]
  | case5 a b c rest hm ih =>
    rw [spaceSemisFix, if_neg hm]
    have hne : spaceSemisFix (b :: c :: rest) ≠ [] := by
      intro hfix
      rw [hfix] at ih
      exact getLast?_ne_none (by simp) ih.symm
    rw [getLast?_cons_ne hne, ih]
    simp only [List.getLast?_cons_cons]

theorem spaceSemisFix_eq_nil_iff (l : List Char) : spaceSemisFix l = [] ↔ l = [] := by
  constructor
  · intro h
    have := getLast?_spaceSemisFix l
    rw [h] at this
    exact List.getLast?_eq_none_iff.mp this.symm
  · intro h
    subst h
    rfl

theorem noTrailWs_spaceSemisFix {l : List Char} (h : NoTrailWs l) :
    NoTrailWs (spaceSemisFix l) := by
  intro c hc
  rw [getLast?_spaceSemisFix] at hc
  exact h c hc

theorem mem_pyRstrip {c : Char} {l : List Char} (h : c ∈ pyRstrip l) : c ∈ l := by
  rw [pyRstrip_eq_rdropWhile] at h
  exact List.rdropWhile_prefix (p := isPySpace) (l := l) |>.subset h

theorem mem_pyStrip {c : Char} {l : List Char} (h : c ∈ pyStrip l) : c ∈ l :=
  mem_pyRstrip ((List.dropWhile_sublist _).subset h)

theorem mem_dropWhile_of_not {p : Char → Bool} {c : Char} :
    ∀ {l : List Char}, c ∈ l → p c = false → c ∈ l.dropWhile p := by
  intro l
  induction l with
  | nil => intro h; simp at h
  | cons x xs ih =>
    intro hc hp
    by_cases hx : p x
    · rw [List.dropWhile_cons_of_pos hx]
      rcases List.mem_cons.mp hc with h | h
      · subst h; rw [hp] at hx; exact absurd hx (by simp)
      · exact ih h hp
    · rw [List.dropWhile_cons_of_neg hx]
      exact hc

theorem mem_pyRstrip_of_not {c : Char} {l : List Char} (hc : c ∈ l)
    (hp : isPySpace c = false) : c ∈ pyRstrip l := by
  unfold pyRstrip
  rw [List.mem_reverse]
  exact mem_dropWhile_of_not (by rwa [List.mem_reverse]) hp

theorem mem_pyStrip_of_not {c : Char} {l : List Char} (hc : c ∈ l)
    (hp : isPySpace c = false) : c ∈ pyStrip l :=
  mem_dropWhile_of_not (mem_pyRstrip_of_not hc hp) hp

theorem pyStrip_eq_nil_iff {l : List Char} : pyStrip l = [] ↔ AllWs l := by
  constructor
  · intro h c hc
    by_cases hp : isPySpace c
    · exact hp
    · have := mem_pyStrip_of_not hc (by simpa using hp)
      rw [h] at this
      simp at this
  · intro h
    have h1 : pyRstrip l = [] := by
      rw [pyRstrip_eq_rdropWhile]
      exact List.rdropWhile_eq_nil_iff.mpr h
    unfold pyStrip pyLstrip
    rw [h1]
    rfl

theorem pyStrip_ne_nil {l : List Char} (h : ∃ c ∈ l, isPySpace c = false) :
    pyStrip l ≠ [] := by
  intro hc
  obtain ⟨c, hcl, hcp⟩ := h
  rw [pyStrip_eq_nil_iff.mp hc c hcl] at hcp
  simp at hcp

theorem head_dropWhile_not {p : Char → Bool} :
    ∀ {l t : List Char} {c : Char}, l.dropWhile p = c :: t → p c = false := by
  intro l
  induction l with
  | nil => intro t c h; simp [List.dropWhile] at h
  | cons x xs ih =>
    intro t c h
    by_cases hx : p x
    · rw [List.dropWhile_cons_of_pos hx] at h
      exact ih h
    · rw [List.dropWhile_cons_of_neg hx] at h
      cases h
      simpa using hx

theorem head_pyStrip_not_ws {l t : List Char} {c : Char} (h : pyStrip l = c :: t) :
    isPySpace c = false :=
  head_dropWhile_not h

theorem mem_spaceSemisFix_of_mem {c : Char} :
    ∀ {l : List Char}, c ∈ l → c ∈ spaceSemisFix l := by
  intro l
  induction l using spaceSemisFix.induct with
  | case1 => intro h; simp at h
  | case2 a => intro h; simpa [spaceSemisFix] using h
  | case3 a b => intro h; simpa [spaceSemisFix] using h
  | case4 a b c' rest hm ih =>
    intro h
    rw [spaceSemisFix, if_pos hm]
    have hm' := hm
    simp only [Bool.and_eq_true, Bool.not_eq_true', decide_eq_true_eq] at hm'
    obtain ⟨⟨_, hb⟩, hc'⟩ := hm'
    subst hb; subst hc'
    simp only [List.mem_cons] at h ⊢
    rcases h with h | h | h | h
    · exact Or.inl h
    · exact Or.inr (Or.inr (Or.inl h))
    · exact Or.inr (Or.inr (Or.inr (Or.inl h)))
    · exact Or.inr (Or.inr (Or.inr (Or.inr (ih (by simp [h])))))
  | case5 a b c' rest hm ih =>
    intro h
    rw [spaceSemisFix, if_neg hm]
    simp only [List.mem_cons] at h ⊢
    rcases h with h | h
    · exact Or.inl h
    · exact Or.inr (ih (by simpa using h))

theorem mem_spaceSemisFix {c : Char} :
    ∀ {l : List Char}, c ∈ spaceSemisFix l → c ∈ l ∨ c = ' ' := by
  intro l
  induction l using spaceSemisFix.induct with
  | case1 => intro h; simp [spaceSemisFix] at h
  | case2 a => intro h; simp [spaceSemisFix] at h; simp [h]
  | case3 a b => intro h; simp [spaceSemisFix] at h; rcases h with h | h <;> simp [h]
  | case4 a b c' rest hm ih =>
    intro h
    rw [spaceSemisFix, if_pos hm] at h
    have hm' := hm
    simp only [Bool.and_eq_true, Bool.not_eq_true', decide_eq_true_eq] at hm'
    obtain ⟨⟨_, hb⟩, hc'⟩ := hm'
    subst hb; subst hc'
    simp only [List.mem_cons] at h
    rcases h with h | h | h | h | h
    · exact Or.inl (by simp [h])
    · exact Or.inr h
    · exact Or.inl (by simp [h])
    · exact Or.inl (by simp [h])
    · rcases ih h with h' | h'
      · exact Or.inl (by simp [h'])
      · exact Or.inr h'
  | case5 a b c' rest hm ih =>
    intro h
    rw [spaceSemisFix, if_neg hm] at h
    simp only [List.mem_cons] at h
    rcases h with h | h
    · exact Or.inl (by simp [h])
    · rcases ih h with h' | h'
      · exact Or.inl (by simp [List.mem_cons] at h' ⊢; tauto)
      · exact Or.inr h'

/-!  Lemmas about the function-style substitution. -/

theorem mem_styleReplacement {c : Char} {t : Fin 3} {nm : List Char}
    (h : c ∈ styleReplacement t nm) :
    c ∈ nm ∨ c ∈ "function ".data ∨ c ∈ "() ".data := by
  fin_cases t <;> simp [styleReplacement] at h ⊢ <;> tauto

theorem exists_nonws_styleReplacement (t : Fin 3) (nm : List Char) :
    ∃ c ∈ styleReplacement t nm, isPySpace c = false := by
  fin_cases t
  · refine ⟨'f', ?_, by decide⟩
    show 'f' ∈ "function ".data ++ (nm ++ "() ".data)
    exact List.mem_append_left _ (by decide)
  · refine ⟨'f', ?_, by decide⟩
    show 'f' ∈ "function ".data ++ (nm ++ " ".data)
    exact List.mem_append_left _ (by decide)
  · refine ⟨'(', ?_, by decide⟩
    show '(' ∈ nm ++ "() ".data
    exact List.mem_append_right _ (by decide)

theorem matchP0_subset {l nm : List Char} {n : Nat} (h : matchP0 l = some (nm, n)) :
    ∀ c ∈ nm, c ∈ l := by
  unfold matchP0 at h
  split at h
  case isTrue hpre =>
    simp only at h
    split at h
    · exact absurd h (by simp)
    · split at h
      · exact absurd h (by simp)
      · split at h
        · split at h
          · simp only [Option.some_inj, Prod.mk.injEq] at h
            intro c hc
            rw [← h.1] at hc
            exact (List.drop_sublist 8 l).subset
              ((List.dropWhile_sublist _).subset ((List.takeWhile_sublist _).subset hc))
          · exact absurd h (by simp)
        · exact absurd h (by simp)
  case isFalse => exact absurd h (by simp)

theorem matchP1_subset {l nm : List Char} {n : Nat} (h : matchP1 l = some (nm, n)) :
    ∀ c ∈ nm, c ∈ l := by
  unfold matchP1 at h
  split at h
  case isTrue hpre =>
    simp only at h
    split at h
    · exact absurd h (by simp)
    · split at h
      · exact absurd h (by simp)
      · simp only [Option.some_inj, Prod.mk.injEq] at h
        intro c hc
        rw [← h.1] at hc
        exact (List.drop_sublist 8 l).subset
          ((List.dropWhile_sublist _).subset ((List.takeWhile_sublist _).subset hc))
  case isFalse => exact absurd h (by simp)

theorem matchP2_subset {l nm : List Char} {n : Nat} (h : matchP2 l = some (nm, n)) :
    ∀ c ∈ nm, c ∈ l := by
  unfold matchP2 at h
  simp only at h
  split at h
  · exact absurd h (by simp)
  · split at h
    · split at h
      · simp only [Option.some_inj, Prod.mk.injEq] at h
        intro c hc
        rw [← h.1] at hc
        exact (List.dropWhile_sublist _).subset ((List.takeWhile_sublist _).subset hc)
      · exact absurd h (by simp)
    · exact absurd h (by simp)

theorem matchStyleAt_subset {s : Fin 3} {w : Bool} {l nm : List Char} {n : Nat}
    (h : matchStyleAt s w l = some (nm, n)) : ∀ c ∈ nm, c ∈ l := by
  fin_cases s <;> simp only [matchStyleAt] at h
  · split at h
    · exact absurd h (by simp)
    · exact matchP0_subset h
  · split at h
    · exact absurd h (by simp)
    · exact matchP1_subset h
  · split at h
    · exact matchP2_subset h
    · exact absurd h (by simp)

theorem mem_fnSubGo {d t : Fin 3} {c : Char} :
    ∀ {fuel : Nat} {w : Bool} {l : List Char}, c ∈ fnSubGo d t fuel w l →
      c ∈ l ∨ c ∈ "function ".data ∨ c ∈ "() ".data := by
  intro fuel
  induction fuel with
  | zero =>
    intro w l h
    cases l with
    | nil => simp [fnSubGo] at h
    | cons x xs => exact Or.inl (by simpa [fnSubGo] using h)
  | succ fuel ih =>
    intro w l h
    cases l with
    | nil => simp [fnSubGo] at h
    | cons x xs =>
      rw [fnSubGo] at h
      split at h
      case h_1 nm n heq =>
        rcases List.mem_append.mp h with hrep | hrec
        · rcases mem_styleReplacement hrep with h' | h'
          · exact Or.inl (matchStyleAt_subset heq c h')
          · exact Or.inr h'
        · rcases ih hrec with h' | h'
          · exact Or.inl (List.mem_cons_of_mem x ((List.drop_sublist _ xs).subset h'))
          · exact Or.inr h'
      case h_2 =>
        rcases List.mem_cons.mp h with h' | h'
        · exact Or.inl (by simp [h'])
        · rcases ih h' with h'' | h''
          · exact Or.inl (List.mem_cons_of_mem x h'')
          · exact Or.inr h''

theorem exists_nonws_fnSubGo {d t : Fin 3} :
    ∀ {fuel : Nat} {w : Bool} {l : List Char}, (∃ c ∈ l, isPySpace c = false) →
      ∃ c ∈ fnSubGo d t fuel w l, isPySpace c = false := by
  intro fuel
  induction fuel with
  | zero =>
    intro w l h
    cases l with
    | nil => simpa [fnSubGo] using h
    | cons x xs => simpa [fnSubGo] using h
  | succ fuel ih =>
    intro w l h
    cases l with
    | nil => simpa [fnSubGo] using h
    | cons x xs =>
      rw [fnSubGo]
      split
      case h_1 nm n heq =>
        obtain ⟨e, he, hep⟩ := exists_nonws_styleReplacement t nm
        exact ⟨e, List.mem_append_left _ he, hep⟩
      case h_2 =>
        by_cases hx : isPySpace x
        · obtain ⟨e, he, hep⟩ := h
          rcases List.mem_cons.mp he with h' | h'
          · subst h'
            rw [hx] at hep
            simp at hep
          · obtain ⟨e', he', hep'⟩ := ih ⟨e, h', hep⟩
            exact ⟨e', List.mem_cons_of_mem x he', hep'⟩
        · exact ⟨x, by simp, by simpa using hx⟩

theorem noTrailWs_changeFunctionStyle {s : List Char} (dt tg : Option (Fin 3))
    (h : NoTrailWs s) : NoTrailWs (changeFunctionStyle s dt tg) := by
  cases dt with
  | none => cases tg <;> exact h
  | some d =>
    cases tg with
    | none => exact h
    | some t => exact noTrailWs_pyStrip _

theorem changeFunctionStyle_ne_nil {s : List Char} (dt tg : Option (Fin 3))
    (h : ∃ c ∈ s, isPySpace c = false) : changeFunctionStyle s dt tg ≠ [] := by
  have hs : s ≠ [] := by
    obtain ⟨c, hc, _⟩ := h
    intro he
    rw [he] at hc
    simp at hc
  cases dt with
  | none => cases tg <;> exact hs
  | some d =>
    cases tg with
    | none => exact hs
    | some t => exact pyStrip_ne_nil (exists_nonws_fnSubGo h)

theorem mem_changeFunctionStyle {s : List Char} {dt tg : Option (Fin 3)} {c : Char}
    (h : c ∈ changeFunctionStyle s dt tg) :
    c ∈ s ∨ c ∈ "function ".data ∨ c ∈ "() ".data := by
  cases dt with
  | none =>
    cases tg <;> exact Or.inl h
  | some d =>
    cases tg with
    | none => exact Or.inl h
    | some t => exact mem_fnSubGo (mem_pyStrip h)

/-!  Lemmas about the simple-variable substitution. -/

theorem simpleVarSubGo_nil (fuel : Nat) : simpleVarSubGo fuel [] = [] := by
  cases fuel <;> rfl

theorem simpleVarSubGo_ne_nil {fuel : Nat} {l : List Char} (h : l ≠ []) :
    simpleVarSubGo fuel l ≠ [] := by
  cases fuel with
  | zero => cases l with
    | nil => exact absurd rfl h
    | cons c rest => simp [simpleVarSubGo]
  | succ f =>
    cases l with
    | nil => exact absurd rfl h
    | cons c rest =>
      cases rest with
      | nil =>
        simp only [simpleVarSubGo]
        split <;> simp
      | cons d ds =>
        simp only [simpleVarSubGo]
        split
        · split
          · simp
          · split <;> simp
        · simp

theorem noTrailWs_simpleVarSubGo :
    ∀ (fuel : Nat) {l : List Char}, NoTrailWs l → NoTrailWs (simpleVarSubGo fuel l) := by
  intro fuel
  induction fuel with
  | zero =>
    intro l h
    cases l with
    | nil => exact h
    | cons c rest => exact h
  | succ f ih =>
    intro l h
    cases l with
    | nil => exact h
    | cons c rest =>
      cases rest with
      | nil =>
        simp only [simpleVarSubGo]
        split
        · exact h
        · exact h
      | cons d ds =>
        simp only [simpleVarSubGo]
        split
        case isTrue hc =>
          split
          case isTrue hd =>
            have hne := @simpleVarSubGo_ne_nil f (d :: ds) (by simp)
            intro e he
            rw [getLast?_cons_ne hne] at he
            exact ih (noTrailWs_tail h (by simp)) e he
          case isFalse hd =>
            split
            case isTrue hda =>
              have heq : '$' :: '{' :: ((d :: ds).takeWhile isWordC ++
                  '}' :: simpleVarSubGo f ((d :: ds).drop ((d :: ds).takeWhile isWordC).length))
                  = ('$' :: '{' :: (d :: ds).takeWhile isWordC ++ ['}']) ++
                    simpleVarSubGo f ((d :: ds).drop ((d :: ds).takeWhile isWordC).length) := by
                simp
              rw [heq]
              by_cases hdrop : (d :: ds).drop ((d :: ds).takeWhile isWordC).length = []
              · rw [hdrop, simpleVarSubGo_nil, List.append_nil]
                intro e he
                rw [List.getLast?_concat] at he
                cases he
                decide
              · have hne := @simpleVarSubGo_ne_nil f _ hdrop
                intro e he
                rw [List.getLast?_append_of_ne_nil _ hne] at he
                exact ih (noTrailWs_drop _ (noTrailWs_tail h (by simp))) e he
            case isFalse hda =>
              have hne := @simpleVarSubGo_ne_nil f (d :: ds) (by simp)
              intro e he
              rw [getLast?_cons_ne hne] at he
              exact ih (noTrailWs_tail h (by simp)) e he
        case isFalse hc =>
          have hne := @simpleVarSubGo_ne_nil f (d :: ds) (by simp)
          intro e he
          rw [getLast?_cons_ne hne] at he
          exact ih (noTrailWs_tail h (by simp)) e he

theorem mem_simpleVarSubGo {e : Char} :
    ∀ {fuel : Nat} {l : List Char}, e ∈ simpleVarSubGo fuel l →
      e ∈ l ∨ e = '$' ∨ e = '{' ∨ e = '}' := by
  intro fuel
  induction fuel with
  | zero =>
    intro l h
    cases l with
    | nil => exact Or.inl h
    | cons c rest => exact Or.inl h
  | succ f ih =>
    intro l h
    cases l with
    | nil => exact Or.inl h
    | cons c rest =>
      cases rest with
      | nil =>
        rcases hfc : (c == '$') with _ | _ <;>
          simp only [simpleVarSubGo] at h <;> simp_all <;> tauto
      | cons d ds =>
        simp only [simpleVarSubGo] at h
        split at h
        case isTrue hc =>
          split at h
          case isTrue hd =>
            rcases List.mem_cons.mp h with h' | h'
            · exact Or.inl (by simp [h', hc])
            · rcases ih h' with h'' | h''
              · exact Or.inl (List.mem_cons_of_mem c h'')
              · exact Or.inr h''
          case isFalse hd =>
            split at h
            case isTrue hda =>
              simp only [List.mem_cons, List.mem_append] at h
              rcases h with h' | h' | h' | h' | h'
              · exact Or.inr (Or.inl h')
              · exact Or.inr (Or.inr (Or.inl h'))
              · exact Or.inl (List.mem_cons_of_mem c ((List.takeWhile_sublist _).subset h'))
              · exact Or.inr (Or.inr (Or.inr h'))
              · rcases ih h' with h3 | h3
                · exact Or.inl (List.mem_cons_of_mem c ((List.drop_sublist _ _).subset h3))
                · exact Or.inr h3
            case isFalse hda =>
              rcases List.mem_cons.mp h with h' | h'
              · exact Or.inl (by simp [h'])
              · rcases ih h' with h'' | h''
                · exact Or.inl (List.mem_cons_of_mem c h'')
                · exact Or.inr h''
        case isFalse hc =>
          rcases List.mem_cons.mp h with h' | h'
          · exact Or.inl (by simp [h'])
          · rcases ih h' with h'' | h''
            · exact Or.inl (List.mem_cons_of_mem c h'')
            · exact Or.inr h''

theorem applyVariableStyle_nil (style : Option String) :
    applyVariableStyle style [] = [] := by
  unfold applyVariableStyle simpleVarSub
  split <;> rfl

theorem applyVariableStyle_ne_nil {style : Option String} {l : List Char}
    (h : l ≠ []) : applyVariableStyle style l ≠ [] := by
  unfold applyVariableStyle simpleVarSub
  split
  · exact simpleVarSubGo_ne_nil h
  · exact h

theorem noTrailWs_applyVariableStyle {style : Option String} {l : List Char}
    (h : NoTrailWs l) : NoTrailWs (applyVariableStyle style l) := by
  unfold applyVariableStyle simpleVarSub
  split
  · exact noTrailWs_simpleVarSubGo _ h
  · exact h

theorem mem_applyVariableStyle {style : Option String} {l : List Char} {e : Char}
    (h : e ∈ applyVariableStyle style l) : e ∈ l ∨ e = '$' ∨ e = '{' ∨ e = '}' := by
  unfold applyVariableStyle simpleVarSub at h
  split at h
  · exact mem_simpleVarSubGo h
  · exact Or.inl h

/-!  Lemmas about indentation. -/

theorem mem_indentLine {cfg : Config} {lvl : Int} {s : List Char} {e : Char}
    (h : e ∈ indentLine cfg lvl s) : e ∈ cfg.tabStr ∨ e ∈ s := by
  unfold indentLine at h
  rcases List.mem_append.mp h with h' | h'
  · obtain ⟨t, ht, het⟩ := List.mem_flatten.mp h'
    rw [List.eq_of_mem_replicate ht] at het
    exact Or.inl het
  · exact Or.inr h'

theorem indentLine_ne_nil {cfg : Config} {lvl : Int} {s : List Char} (h : s ≠ []) :
    indentLine cfg lvl s ≠ [] := by
  unfold indentLine
  simp [h]

theorem noTrailWs_indentLine {cfg : Config} {lvl : Int} {s : List Char}
    (hne : s ≠ []) (h : NoTrailWs s) : NoTrailWs (indentLine cfg lvl s) :=
  noTrailWs_append hne h

/-!  Lemmas about splitting and joining on newlines. -/

theorem splitNl_ne_nil (l : List Char) : splitNl l ≠ [] := by
  induction l with
  | nil => simp [splitNl]
  | cons c rest ih =>
    rw [splitNl]
    split
    · simp
    · split
      · simp
      · simp

theorem mem_splitNl_no_nl :
    ∀ {l : List Char} {x : List Char}, x ∈ splitNl l → '\n' ∉ x := by
  intro l
  induction l with
  | nil =>
    intro x hx
    simp [splitNl] at hx
    simp [hx]
  | cons c rest ih =>
    intro x hx
    rw [splitNl] at hx
    split at hx
    · rcases List.mem_cons.mp hx with h | h
      · simp [h]
      · exact ih h
    · split at hx
      case h_1 heq => exact absurd heq (splitNl_ne_nil rest)
      case h_2 h t heq =>
        rcases List.mem_cons.mp hx with h' | h'
        · subst h'
          intro hmem
          rcases List.mem_cons.mp hmem with h'' | h''
          · rename_i hc _
            exact hc h''.symm
          · exact ih (heq ▸ List.mem_cons_self h t) h''
        · exact ih (heq ▸ List.mem_cons_of_mem h h')

theorem splitNl_of_no_nl {l : List Char} (h : '\n' ∉ l) : splitNl l = [l] := by
  induction l with
  | nil => rfl
  | cons c rest ih =>
    have hc : c ≠ '\n' := by
      intro hh
      exact h (by simp [hh])
    rw [splitNl, if_neg hc, ih (by intro hh; exact h (List.mem_cons_of_mem c hh))]

theorem splitNl_append_nl {a t : List Char} (h : '\n' ∉ a) :
    splitNl (a ++ '\n' :: t) = a :: splitNl t := by
  induction a with
  | nil => simp [splitNl]
  | cons c a' ih =>
    have hc : c ≠ '\n' := by
      intro hh
      exact h (by simp [hh])
    rw [List.cons_append, splitNl, if_neg hc,
      ih (by intro hh; exact h (List.mem_cons_of_mem c hh))]

theorem splitNl_joinNl :
    ∀ {L : List (List Char)}, L ≠ [] → (∀ x ∈ L, '\n' ∉ x) →
      splitNl (joinNl L) = L := by
  intro L
  induction L with
  | nil => intro h; exact absurd rfl h
  | cons l L' ih =>
    intro _ hno
    cases L' with
    | nil => exact splitNl_of_no_nl (hno l (by simp))
    | cons m M =>
      rw [show joinNl (l :: m :: M) = l ++ '\n' :: joinNl (m :: M) from rfl,
        splitNl_append_nl (hno l (by simp))]
      rw [ih (by simp) (by intro x hx; exact hno x (List.mem_cons_of_mem l hx))]

theorem joinNl_eq_nil_iff :
    ∀ {L : List (List Char)}, L ≠ [] → (joinNl L = [] ↔ L = [[]]) := by
  intro L
  cases L with
  | nil => intro h; exact absurd rfl h
  | cons l L' =>
    intro _
    cases L' with
    | nil =>
      constructor
      · intro h
        rw [show joinNl [l] = l from rfl] at h
        rw [h]
      · intro h
        cases h
        rfl
    | cons m M =>
      rw [show joinNl (l :: m :: M) = l ++ '\n' :: joinNl (m :: M) from rfl]
      constructor
      · intro h
        exact absurd h (by simp)
      · intro h
        simp at h

theorem getLast?_mem' {α : Type} {l : List α} {a : α} (h : l.getLast? = some a) :
    a ∈ l := by
  have hne : l ≠ [] := by
    intro hh
    rw [hh] at h
    simp at h
  rw [List.getLast?_eq_getLast _ hne] at h
  rw [← Option.some_inj.mp h]
  exact List.getLast_mem hne

theorem getLast?_joinNl_nl :
    ∀ {L : List (List Char)}, (∀ x ∈ L, '\n' ∉ x) →
      ((joinNl L).getLast? = some '\n' ↔ 2 ≤ L.length ∧ L.getLast? = some []) := by
  intro L
  induction L with
  | nil => simp [joinNl]
  | cons l L' ih =>
    intro hno
    cases L' with
    | nil =>
      rw [show joinNl [l] = l from rfl]
      constructor
      · intro h
        exact absurd (getLast?_mem' h) (hno l (by simp))
      · intro h
        simp at h
    | cons m M =>
      rw [show joinNl (l :: m :: M) = l ++ '\n' :: joinNl (m :: M) from rfl,
        List.getLast?_append_of_ne_nil _ (by simp)]
      by_cases hj : joinNl (m :: M) = []
      · have hM : (m :: M) = [[]] := (joinNl_eq_nil_iff (by simp)).mp hj
        rw [hj]
        cases hM
        simp
      · rw [getLast?_cons_ne hj]
        rw [ih (by intro x hx; exact hno x (List.mem_cons_of_mem l hx))]
        constructor
        · intro h
          refine ⟨by simp, ?_⟩
          rw [getLast?_cons_ne (by simp)]
          exact h.2
        · intro h
          obtain ⟨hlen, hlast⟩ := h
          rw [getLast?_cons_ne (by simp)] at hlast
          refine ⟨?_, hlast⟩
          by_contra hlt
          push_neg at hlt
          interval_cases hlen2 : (m :: M).length
          · simp at hlen2
          · have : M = [] := by
              simpa using hlen2
            subst this
            have : m = [] := by
              simpa using hlast
            subst this
            exact hj rfl

/-!  Membership preservation through the get_test_record pipeline: every
stage only deletes characters. -/

theorem breakAtFirst_mem {ch e : Char} :
    ∀ {l : List Char} {p : List Char × List Char},
      breakAtFirst ch l = some p → e ∈ p.2 → e ∈ l := by
  intro l
  induction l with
  | nil => intro p h; simp [breakAtFirst] at h
  | cons x rest ih =>
    intro p h he
    rw [breakAtFirst] at h
    split at h
    · cases h
      exact List.mem_cons_of_mem x he
    · simp only [Option.map_eq_some'] at h
      obtain ⟨q, hq, rfl⟩ := h
      exact List.mem_cons_of_mem x (ih hq he)

theorem removePair_mem {a b e : Char} :
    ∀ {l : List Char}, e ∈ removePair a b l → e ∈ l := by
  intro l
  induction l using removePair.induct (a := a) (b := b) with
  | case1 => intro h; simp [removePair] at h
  | case2 c => intro h; simpa [removePair] using h
  | case3 c d rest hcd ih =>
    intro h
    rw [removePair, if_pos hcd] at h
    exact List.mem_cons_of_mem c (List.mem_cons_of_mem d (ih h))
  | case4 c d rest hcd ih =>
    intro h
    rw [removePair, if_neg hcd] at h
    rcases List.mem_cons.mp h with h' | h'
    · simp [h']
    · exact List.mem_cons_of_mem c (ih h')

theorem collapseBetweenGo_mem {oc cc e : Char} :
    ∀ {fuel : Nat} {l : List Char}, e ∈ collapseBetweenGo oc cc fuel l → e ∈ l := by
  intro fuel
  induction fuel with
  | zero =>
    intro l h
    cases l with
    | nil => simpa [collapseBetweenGo] using h
    | cons x rest => simpa [collapseBetweenGo] using h
  | succ f ih =>
    intro l h
    cases l with
    | nil => simpa [collapseBetweenGo] using h
    | cons x rest =>
      rw [collapseBetweenGo] at h
      split at h
      · split at h
        case h_1 p heq => exact List.mem_cons_of_mem x (breakAtFirst_mem heq (ih h))
        case h_2 =>
          rcases List.mem_cons.mp h with h' | h'
          · simp [h']
          · exact List.mem_cons_of_mem x (ih h')
      · rcases List.mem_cons.mp h with h' | h'
        · simp [h']
        · exact List.mem_cons_of_mem x (ih h')

theorem collapseWeirdGo_mem {e : Char} :
    ∀ {fuel : Nat} {l : List Char}, e ∈ collapseWeirdGo fuel l → e ∈ l := by
  intro fuel
  induction fuel with
  | zero =>
    intro l h
    cases l with
    | nil => simpa [collapseWeirdGo] using h
    | cons x rest =>
      cases rest with
      | nil => simpa [collapseWeirdGo] using h
      | cons y t => simpa [collapseWeirdGo] using h
  | succ f ih =>
    intro l h
    cases l with
    | nil => simpa [collapseWeirdGo] using h
    | cons x rest =>
      cases rest with
      | nil => simpa [collapseWeirdGo] using h
      | cons y t =>
        rw [collapseWeirdGo] at h
        split at h
        · split at h
          case h_1 p heq =>
            exact List.mem_cons_of_mem x (List.mem_cons_of_mem y (breakAtFirst_mem heq (ih h)))
          case h_2 =>
            rcases List.mem_cons.mp h with h' | h'
            · simp [h']
            · exact List.mem_cons_of_mem x (ih h')
        · rcases List.mem_cons.mp h with h' | h'
          · simp [h']
          · exact List.mem_cons_of_mem x (ih h')

theorem removeEscaped_mem {e : Char} :
    ∀ {l : List Char}, e ∈ removeEscaped l → e ∈ l := by
  intro l
  induction l using removeEscaped.induct with
  | case1 => intro h; simp [removeEscaped] at h
  | case2 c => intro h; simpa [removeEscaped] using h
  | case3 c d rest hcd ih =>
    intro h
    rw [removeEscaped, if_pos hcd] at h
    exact List.mem_cons_of_mem c (List.mem_cons_of_mem d (ih h))
  | case4 c d rest hcd ih =>
    intro h
    rw [removeEscaped, if_neg hcd] at h
    rcases List.mem_cons.mp h with h' | h'
    · simp [h']
    · exact List.mem_cons_of_mem c (ih h')

theorem removeCommentAux_mem {e : Char} :
    ∀ {l : List Char}, e ∈ removeCommentAux l → e ∈ l := by
  intro l
  induction l using removeCommentAux.induct with
  | case1 => intro h; simp [removeCommentAux] at h
  | case2 c => intro h; simpa [removeCommentAux] using h
  | case3 c d rest hcd =>
    intro h
    rw [removeCommentAux, if_pos hcd] at h
    simp at h
  | case4 c d rest hcd ih =>
    intro h
    rw [removeCommentAux, if_neg hcd] at h
    rcases List.mem_cons.mp h with h' | h'
    · simp [h']
    · exact List.mem_cons_of_mem c (ih h')

theorem removeComment_mem {e : Char} {l : List Char} (h : e ∈ removeComment l) :
    e ∈ l := by
  unfold removeComment at h
  split at h
  · simp at h
  · split at h
    · simp at h
    · exact removeCommentAux_mem h

theorem getTestRecord_mem {e : Char} {l : List Char} (h : e ∈ getTestRecord l) :
    e ∈ l := by
  unfold getTestRecord collapseBetween collapseWeird at h
  exact removePair_mem (removePair_mem (collapseBetweenGo_mem (collapseBetweenGo_mem
    (collapseBetweenGo_mem (collapseWeirdGo_mem (removeEscaped_mem
      (removeComment_mem h)))))))

/-!  Lemmas about do-case normalization. -/

theorem isPrefixOf_mem {w l : List Char} (h : w.isPrefixOf l = true) {e : Char}
    (he : e ∈ w) : e ∈ l :=
  (List.isPrefixOf_iff_prefix.mp h).subset he

theorem caseThenWs_mem_c {x : List Char} (h : caseThenWs x = true) : 'c' ∈ x := by
  unfold caseThenWs at h
  simp only [Bool.and_eq_true] at h
  exact isPrefixOf_mem h.1 (by decide)

theorem caseThenWs_ne_nil {x : List Char} (h : caseThenWs x = true) : x ≠ [] := by
  intro he
  have := caseThenWs_mem_c h
  rw [he] at this
  simp at this

theorem caseSplitGo_spec :
    ∀ {l : List Char} {idx q : Nat}, caseSplitGo idx l = some q →
      idx ≤ q ∧ caseThenWs (l.drop (q - idx)) = true := by
  intro l
  induction l with
  | nil => intro idx q h; simp [caseSplitGo] at h
  | cons c rest ih =>
    intro idx q h
    rw [caseSplitGo] at h
    split at h
    case isTrue hc =>
      simp only at h
      split at h
      case isTrue hcase =>
        cases h
        refine ⟨by omega, ?_⟩
        have : idx + ((c :: rest).takeWhile isPySpace).length - idx
            = ((c :: rest).takeWhile isPySpace).length := by omega
        rw [this]
        exact hcase
      case isFalse hcase =>
        obtain ⟨h1, h2⟩ := ih h
        refine ⟨by omega, ?_⟩
        have hq : q - idx = (q - (idx + 1)) + 1 := by omega
        rw [hq, List.drop_succ_cons]
        exact h2
    case isFalse hc =>
      obtain ⟨h1, h2⟩ := ih h
      refine ⟨by omega, ?_⟩
      have hq : q - idx = (q - (idx + 1)) + 1 := by omega
      rw [hq, List.drop_succ_cons]
      exact h2

theorem doCaseTail_false_of_allws {t : List Char} (h : AllWs t) :
    doCaseTail t = false := by
  unfold doCaseTail
  have hdo : "do".data.isPrefixOf t = false := by
    by_contra hh
    simp only [Bool.not_eq_false] at hh
    exact absurd (h 'd' (isPrefixOf_mem hh (by decide))) (by decide)
  have hthen : "then".data.isPrefixOf t = false := by
    by_contra hh
    simp only [Bool.not_eq_false] at hh
    exact absurd (h 't' (isPrefixOf_mem hh (by decide))) (by decide)
  rw [hdo, hthen]
  rfl

theorem allWs_tail {c : Char} {t : List Char} (h : AllWs (c :: t)) : AllWs t :=
  fun e he => h e (List.mem_cons_of_mem c he)

theorem doCaseSearch_false_of_allws :
    ∀ {t : List Char} {b : Bool}, AllWs t → doCaseSearch b t = false := by
  intro t
  induction t with
  | nil =>
    intro b h
    rw [doCaseSearch, doCaseTail_false_of_allws h]
    simp
  | cons c rest ih =>
    intro b h
    rw [doCaseSearch, doCaseTail_false_of_allws h,
      doCaseTail_false_of_allws (allWs_tail h), ih (allWs_tail h)]
    simp

theorem normLine_ne_nil (l : List Char) : normLine l ≠ [] := by
  unfold normLine
  split
  · split <;> simp
  · simp

theorem mem_normLine_no_nl {l x : List Char} (hno : '\n' ∉ l)
    (hx : x ∈ normLine l) : '\n' ∉ x := by
  unfold normLine at hx
  split at hx
  · split at hx
    · simp only [List.mem_cons, List.not_mem_nil, or_false] at hx
      rcases hx with h | h
      · subst h
        intro hmem
        exact hno (List.mem_of_mem_take (mem_pyRstrip hmem))
      · subst h
        intro hmem
        exact hno (List.mem_of_mem_drop hmem)
    · simp only [List.mem_singleton] at hx
      subst hx
      exact hno
  · simp only [List.mem_singleton] at hx
    subst hx
    exact hno

theorem normLine_of_allws {l : List Char} (h : AllWs l) : normLine l = [l] := by
  unfold normLine
  rw [doCaseSearch_false_of_allws (fun e he => h e (getTestRecord_mem he))]
  simp

theorem normLine_nil : normLine [] = [[]] :=
  normLine_of_allws (by intro e he; simp at he)

theorem normLine_getLast?_strip {l x : List Char}
    (h : (normLine l).getLast? = some x) : pyStrip x = [] ↔ AllWs l := by
  unfold normLine at h
  split at h
  · split at h
    case h_1 q hq =>
      simp only [List.getLast?_cons_cons, List.getLast?_singleton, Option.some_inj] at h
      subst h
      have hc := (caseSplitGo_spec hq).2
      rw [Nat.sub_zero] at hc
      constructor
      · intro hp
        exact absurd hp (pyStrip_ne_nil ⟨'c', caseThenWs_mem_c hc, by decide⟩)
      · intro hall
        exact absurd (hall 'c' (List.mem_of_mem_drop (caseThenWs_mem_c hc))) (by decide)
    case h_2 =>
      simp only [List.getLast?_singleton, Option.some_inj] at h
      subst h
      exact pyStrip_eq_nil_iff
  · simp only [List.getLast?_singleton, Option.some_inj] at h
    subst h
    exact pyStrip_eq_nil_iff

/-!  Lemmas about flattening the normalized lines. -/

theorem flatten_ne_nil' {M : List (List (List Char))} (hM : M ≠ [])
    (h : ∀ x ∈ M, x ≠ []) : M.flatten ≠ [] := by
  cases M with
  | nil => exact absurd rfl hM
  | cons x rest =>
    cases hx : x with
    | nil => exact absurd hx (h x (by simp))
    | cons y ys => simp [hx]

theorem length_le_length_flatten {M : List (List (List Char))}
    (h : ∀ x ∈ M, x ≠ []) : M.length ≤ M.flatten.length := by
  induction M with
  | nil => simp
  | cons x rest ih =>
    have hx : x ≠ [] := h x (by simp)
    have hr := ih (fun y hy => h y (List.mem_cons_of_mem x hy))
    cases x with
    | nil => exact absurd rfl hx
    | cons y ys =>
      simp only [List.flatten_cons, List.length_cons, List.length_append]
      omega

theorem getLast?_flatten_of_ne_nil :
    ∀ {M : List (List (List Char))}, M ≠ [] → (∀ x ∈ M, x ≠ []) →
      ∃ m, M.getLast? = some m ∧ M.flatten.getLast? = m.getLast? := by
  intro M
  induction M with
  | nil => intro h; exact absurd rfl h
  | cons x rest ih =>
    intro _ hne
    cases rest with
    | nil =>
      refine ⟨x, rfl, ?_⟩
      rw [show List.flatten [x] = x by simp]
    | cons y ys =>
      obtain ⟨m, hm1, hm2⟩ := ih (by simp)
        (fun z hz => hne z (List.mem_cons_of_mem x hz))
      refine ⟨m, ?_, ?_⟩
      · rw [getLast?_cons_ne (by simp)]
        exact hm1
      · rw [List.flatten_cons,
          List.getLast?_append_of_ne_nil _ (flatten_ne_nil' (by simp)
            (fun z hz => hne z (List.mem_cons_of_mem x hz)))]
        exact hm2

/-!  The branch analysis of processLine: every output line is either
empty (blank input line), the right-stripped input line (the pass-through
branches), or an indented stripped line. -/

theorem pyStrip_pyRstrip (r : List Char) : pyStrip (pyRstrip r) = pyStrip r := by
  unfold pyStrip pyLstrip
  rw [pyRstrip_eq_rdropWhile, pyRstrip_eq_rdropWhile, List.rdropWhile_idempotent]

theorem pyRstrip_ne_nil_of_strip {r : List Char} (h : pyStrip r ≠ []) :
    pyRstrip r ≠ [] := by
  intro hc
  unfold pyStrip pyLstrip at h
  rw [hc] at h
  exact h rfl

theorem handleMultilineContent_fst (record stripped : List Char)
    (st : FormatterState) :
    (handleMultilineContent record stripped st).1 = record := by
  unfold handleMultilineContent
  split
  · split <;> rfl
  · rfl

theorem formatLine_fst (cfg : Config) (s t : List Char) (st : FormatterState) :
    ∃ lvl s', (formatLine cfg s t st).1 = indentLine cfg lvl s' ∧
      (s' = s ∨ ∃ d, s' = changeFunctionStyle s (some d) cfg.applyFunctionStyle) := by
  unfold formatLine
  simp only
  cases hd : detectFunctionStyle t with
  | none => exact ⟨_, s, rfl, Or.inl rfl⟩
  | some d => exact ⟨_, _, rfl, Or.inr ⟨d, rfl⟩⟩

theorem processLine_blank (cfg : Config) (st : FormatterState) {r : List Char}
    (h : pyStrip r = []) : processLine cfg st r = ([], st) := by
  unfold processLine
  simp only [pyStrip_pyRstrip]
  rw [if_pos h, h]

/-- The fixed stripped line (the double-semicolon fix applied or not):
its basic properties. -/
theorem fixedStrip_props {r s1 : List Char} (hstrip : pyStrip r ≠ [])
    (hs1 : s1 = pyStrip (pyRstrip r) ∨ s1 = spaceSemisFix (pyStrip (pyRstrip r))) :
    s1 ≠ [] ∧ NoTrailWs s1 ∧ (∃ c ∈ s1, isPySpace c = false) ∧
      (∀ e ∈ s1, e ∈ r ∨ e = ' ') := by
  have hsr : pyStrip (pyRstrip r) ≠ [] := by rw [pyStrip_pyRstrip]; exact hstrip
  have hnonws : ∃ c ∈ pyStrip (pyRstrip r), isPySpace c = false := by
    cases hh : pyStrip (pyRstrip r) with
    | nil => exact absurd hh hsr
    | cons c t => exact ⟨c, by simp, head_pyStrip_not_ws hh⟩
  rcases hs1 with h | h
  · subst h
    refine ⟨hsr, noTrailWs_pyStrip _, hnonws, ?_⟩
    intro e he
    exact Or.inl (mem_pyRstrip (mem_pyStrip he))
  · subst h
    refine ⟨?_, noTrailWs_spaceSemisFix (noTrailWs_pyStrip _), ?_, ?_⟩
    · intro hc
      exact hsr ((spaceSemisFix_eq_nil_iff _).mp hc)
    · obtain ⟨c, hc, hcp⟩ := hnonws
      exact ⟨c, mem_spaceSemisFix_of_mem hc, hcp⟩
    · intro e he
      rcases mem_spaceSemisFix he with h' | h'
      · exact Or.inl (mem_pyRstrip (mem_pyStrip h'))
      · exact Or.inr h'

theorem processLineTail_fst (cfg : Config) (record stripped test1 : List Char)
    (st6 : FormatterState) :
    (processLineTail cfg record stripped test1 st6).1 = record ∨
    ∃ lvl s', (processLineTail cfg record stripped test1 st6).1
        = indentLine cfg lvl s' ∧
      (s' = stripped ∨ ∃ d, s' = changeFunctionStyle stripped (some d)
        cfg.applyFunctionStyle) := by
  unfold processLineTail
  split
  · exact Or.inl rfl
  · split
    · exact Or.inl rfl
    · split
      · exact Or.inl rfl
      · obtain ⟨lvl, s', hfst, hcases⟩ := formatLine_fst cfg stripped test1 st6
        exact Or.inr ⟨lvl, s', hfst, hcases⟩

theorem processLineMid_fst (cfg : Config) (record stripped test1 : List Char)
    (prev cont insideMq : Bool) (st3 : FormatterState) :
    (processLineMid cfg record stripped test1 prev cont insideMq st3).1
        = record ∨
    ∃ lvl s', (processLineMid cfg record stripped test1 prev cont insideMq st3).1
        = indentLine cfg lvl s' ∧
      (s' = stripped ∨ ∃ d, s' = changeFunctionStyle stripped (some d)
        cfg.applyFunctionStyle) := by
  unfold processLineMid
  split
  · exact Or.inl rfl
  · exact processLineTail_fst cfg record stripped test1 _

theorem processLineMain_fst (cfg : Config) (record stripped test0 : List Char)
    (st : FormatterState) :
    (processLineMain cfg record stripped test0 st).1 = record ∨
    ∃ lvl s', (processLineMain cfg record stripped test0 st).1
        = indentLine cfg lvl s' ∧
      (s' = stripped ∨ ∃ d, s' = changeFunctionStyle stripped (some d)
        cfg.applyFunctionStyle) := by
  unfold processLineMain
  exact processLineMid_fst cfg record stripped _ _ _ _ _

theorem processLineQuote_fst (cfg : Config) (record stripped test0 : List Char)
    (st : FormatterState) :
    (processLineQuote cfg record stripped test0 st).1 = record ∨
    ∃ lvl s', (processLineQuote cfg record stripped test0 st).1
        = indentLine cfg lvl s' ∧
      (s' = stripped ∨ ∃ d, s' = changeFunctionStyle stripped (some d)
        cfg.applyFunctionStyle) := by
  unfold processLineQuote
  split
  · exact Or.inr ⟨st.tab, stripped, rfl, Or.inl rfl⟩
  · exact processLineMain_fst cfg record stripped test0 st

theorem processLine_fst_shape (cfg : Config) (st : FormatterState) (r : List Char)
    (hstrip : pyStrip r ≠ []) :
    (processLine cfg st r).1 = pyRstrip r ∨
    ∃ lvl s', (processLine cfg st r).1 = indentLine cfg lvl s' ∧ s' ≠ [] ∧
      NoTrailWs s' ∧
      ∀ e ∈ s', e ∈ r ∨ e ∈ "function ".data ∨ e ∈ "() ".data ∨ e = ' ' := by
  have hstrip' : pyStrip (pyRstrip r) ≠ [] := by rw [pyStrip_pyRstrip]; exact hstrip
  have hs1or : (if st.caseLevel ≠ 0 then spaceSemisFix (pyStrip (pyRstrip r))
        else pyStrip (pyRstrip r)) = pyStrip (pyRstrip r) ∨
      (if st.caseLevel ≠ 0 then spaceSemisFix (pyStrip (pyRstrip r))
        else pyStrip (pyRstrip r)) = spaceSemisFix (pyStrip (pyRstrip r)) := by
    split
    · exact Or.inr rfl
    · exact Or.inl rfl
  obtain ⟨hs1ne, hs1nt, hs1nonws, hs1mem⟩ := fixedStrip_props hstrip hs1or
  have hs1mem' : ∀ e ∈ (if st.caseLevel ≠ 0 then spaceSemisFix (pyStrip (pyRstrip r))
      else pyStrip (pyRstrip r)),
      e ∈ r ∨ e ∈ "function ".data ∨ e ∈ "() ".data ∨ e = ' ' := by
    intro e he
    rcases hs1mem e he with h | h
    · exact Or.inl h
    · exact Or.inr (Or.inr (Or.inr h))
  have hchange : ∀ s', (s' = (if st.caseLevel ≠ 0 then spaceSemisFix (pyStrip (pyRstrip r))
        else pyStrip (pyRstrip r)) ∨
      ∃ d, s' = changeFunctionStyle (if st.caseLevel ≠ 0 then
        spaceSemisFix (pyStrip (pyRstrip r)) else pyStrip (pyRstrip r)) (some d)
          cfg.applyFunctionStyle) →
      s' ≠ [] ∧ NoTrailWs s' ∧
        ∀ e ∈ s', e ∈ r ∨ e ∈ "function ".data ∨ e ∈ "() ".data ∨ e = ' ' := by
    intro s' hs'
    rcases hs' with h | ⟨d, h⟩
    · subst h
      exact ⟨hs1ne, hs1nt, hs1mem'⟩
    · subst h
      refine ⟨changeFunctionStyle_ne_nil _ _ hs1nonws,
        noTrailWs_changeFunctionStyle _ _ hs1nt, ?_⟩
      intro e he
      rcases mem_changeFunctionStyle he with h' | h' | h'
      · exact hs1mem' e h'
      · exact Or.inr (Or.inl h')
      · exact Or.inr (Or.inr (Or.inl h'))
  unfold processLine
  simp only
  rw [if_neg hstrip']
  split
  · rw [handleMultilineContent_fst]
    exact Or.inl rfl
  · rcases processLineQuote_fst cfg (pyRstrip r)
      (if st.caseLevel ≠ 0 then spaceSemisFix (pyStrip (pyRstrip r))
        else pyStrip (pyRstrip r))
      (getTestRecord (if st.caseLevel ≠ 0 then spaceSemisFix (pyStrip (pyRstrip r))
        else pyStrip (pyRstrip r))) st with h | ⟨lvl, s', hfst, hcases⟩
    · exact Or.inl h
    · obtain ⟨hne, hnt, hmem⟩ := hchange s' hcases
      exact Or.inr ⟨lvl, s', hfst, hne, hnt, hmem⟩

/-!  The per-line output of the beautify loop: its emptiness, its trailing
whitespace, its freedom from newlines. -/

theorem outLine_nil_iff (cfg : Config) (st : FormatterState) (r : List Char) :
    applyVariableStyle cfg.variableStyle (processLine cfg st r).1 = [] ↔ AllWs r := by
  constructor
  · intro h
    by_contra hall
    have hstrip : pyStrip r ≠ [] := by
      intro hc
      exact hall (pyStrip_eq_nil_iff.mp hc)
    rcases processLine_fst_shape cfg st r hstrip with h1 | ⟨lvl, s', h1, hne, _, _⟩
    · rw [h1] at h
      exact applyVariableStyle_ne_nil (pyRstrip_ne_nil_of_strip hstrip) h
    · rw [h1] at h
      exact applyVariableStyle_ne_nil (indentLine_ne_nil hne) h
  · intro h
    rw [processLine_blank cfg st (pyStrip_eq_nil_iff.mpr h)]
    exact applyVariableStyle_nil _

theorem outLine_noTrailWs (cfg : Config) (st : FormatterState) (r : List Char) :
    NoTrailWs (applyVariableStyle cfg.variableStyle (processLine cfg st r).1) := by
  by_cases hstrip : pyStrip r = []
  · have h0 : applyVariableStyle cfg.variableStyle (processLine cfg st r).1 = [] := by
      rw [processLine_blank cfg st hstrip]
      exact applyVariableStyle_nil _
    rw [h0]
    intro c hc
    simp at hc
  · rcases processLine_fst_shape cfg st r hstrip with h1 | ⟨lvl, s', h1, hne, hnt, _⟩
    · rw [h1]
      exact noTrailWs_applyVariableStyle (noTrailWs_pyRstrip _)
    · rw [h1]
      exact noTrailWs_applyVariableStyle (noTrailWs_indentLine hne hnt)

theorem outLine_no_nl (cfg : Config) (st : FormatterState) (r : List Char)
    (htab : '\n' ∉ cfg.tabStr) (hr : '\n' ∉ r) :
    '\n' ∉ applyVariableStyle cfg.variableStyle (processLine cfg st r).1 := by
  intro hmem
  rcases mem_applyVariableStyle hmem with h | h | h | h
  · by_cases hstrip : pyStrip r = []
    · rw [processLine_blank cfg st hstrip] at h
      simp at h
    · rcases processLine_fst_shape cfg st r hstrip with h1 | ⟨lvl, s', h1, _, _, hmem'⟩
      · rw [h1] at h
        exact hr (mem_pyRstrip h)
      · rw [h1] at h
        rcases mem_indentLine h with h' | h'
        · exact htab h'
        · rcases hmem' _ h' with h'' | h'' | h'' | h''
          · exact hr h''
          · exact absurd h'' (by decide)
          · exact absurd h'' (by decide)
          · exact absurd h'' (by decide)
  · exact absurd h (by decide)
  · exact absurd h (by decide)
  · exact absurd h (by decide)

/-!  The line loop: length preservation, membership and last element. -/

theorem processAll_length (cfg : Config) :
    ∀ (L : List (List Char)) (st : FormatterState),
      (processAll cfg st L).1.length = L.length := by
  intro L
  induction L with
  | nil => intro st; rfl
  | cons r rest ih =>
    intro st
    simp only [processAll, List.length_cons]
    rw [ih]

theorem processAll_ne_nil (cfg : Config) (st : FormatterState)
    {L : List (List Char)} (h : L ≠ []) : (processAll cfg st L).1 ≠ [] := by
  intro hc
  apply h
  have hl := processAll_length cfg L st
  rw [hc] at hl
  exact List.length_eq_zero.mp hl.symm

theorem processAll_mem (cfg : Config) :
    ∀ (L : List (List Char)) (st : FormatterState) (x : List Char),
      x ∈ (processAll cfg st L).1 →
      ∃ st' r, r ∈ L ∧
        x = applyVariableStyle cfg.variableStyle (processLine cfg st' r).1 := by
  intro L
  induction L with
  | nil => intro st x hx; simp [processAll] at hx
  | cons r rest ih =>
    intro st x hx
    simp only [processAll] at hx
    rcases List.mem_cons.mp hx with h | h
    · exact ⟨st, r, by simp, h⟩
    · obtain ⟨st', r', hr', hx'⟩ := ih _ x h
      exact ⟨st', r', List.mem_cons_of_mem r hr', hx'⟩

theorem processAll_getLast? (cfg : Config) :
    ∀ (L : List (List Char)) (st : FormatterState) (r : List Char),
      L.getLast? = some r →
      ∃ st', (processAll cfg st L).1.getLast?
        = some (applyVariableStyle cfg.variableStyle (processLine cfg st' r).1) := by
  intro L
  induction L with
  | nil => intro st r h; simp at h
  | cons a rest ih =>
    intro st r h
    cases rest with
    | nil =>
      have ha : a = r := by simpa using h
      subst ha
      exact ⟨st, by simp [processAll]⟩
    | cons b M =>
      rw [getLast?_cons_ne (by simp)] at h
      obtain ⟨st', hst'⟩ := ih (processLine cfg st a).2 r h
      refine ⟨st', ?_⟩
      have hshape : (processAll cfg st (a :: b :: M)).1
          = applyVariableStyle cfg.variableStyle (processLine cfg st a).1
            :: (processAll cfg (processLine cfg st a).2 (b :: M)).1 := rfl
      rw [hshape, getLast?_cons_ne (processAll_ne_nil cfg _ (by simp))]
      exact hst'

/-!  Joining the split lines reproduces the text; the normalized lines. -/

theorem joinNl_splitNl : ∀ l : List Char, joinNl (splitNl l) = l := by
  intro l
  induction l with
  | nil => rfl
  | cons c rest ih =>
    rw [splitNl]
    split
    case isTrue hc =>
      subst hc
      cases hsp : splitNl rest with
      | nil => exact absurd hsp (splitNl_ne_nil rest)
      | cons m M =>
        rw [show joinNl ([] :: m :: M) = [] ++ '\n' :: joinNl (m :: M) from rfl,
          List.nil_append, ← hsp, ih]
    case isFalse hc =>
      cases hsp : splitNl rest with
      | nil => exact absurd hsp (splitNl_ne_nil rest)
      | cons h t =>
        rw [hsp] at ih
        cases t with
        | nil =>
          rw [show joinNl [h] = h from rfl] at ih
          subst ih
          rfl
        | cons m M =>
          rw [show joinNl (h :: m :: M) = h ++ '\n' :: joinNl (m :: M) from rfl] at ih
          rw [show joinNl ((c :: h) :: m :: M)
              = (c :: h) ++ '\n' :: joinNl (m :: M) from rfl,
            List.cons_append, ih]

theorem normalizeDoCaseLines_splitNl (l : List Char) :
    splitNl (normalizeDoCaseLines l) = ((splitNl l).map normLine).flatten := by
  unfold normalizeDoCaseLines
  have hel : ∀ x ∈ (splitNl l).map normLine, x ≠ [] := by
    intro x hx
    obtain ⟨p, hp, hpx⟩ := List.mem_map.mp hx
    rw [← hpx]
    exact normLine_ne_nil p
  apply splitNl_joinNl (flatten_ne_nil' (by simp [splitNl_ne_nil]) hel)
  intro x hx
  obtain ⟨m, hm, hxm⟩ := List.mem_flatten.mp hx
  obtain ⟨p, hp, hpm⟩ := List.mem_map.mp hm
  rw [← hpm] at hxm
  exact mem_normLine_no_nl (mem_splitNl_no_nl hp) hxm

theorem beautifyString_fst (cfg : Config) (data : String) :
    (beautifyString cfg data).1 = String.mk
      (joinNl (processAll cfg {}
        (splitNl (normalizeDoCaseLines data.data))).1) := rfl

theorem beautifyLines_no_nl (cfg : Config) (data : String)
    (htab : '\n' ∉ cfg.tabStr) :
    ∀ x ∈ (processAll cfg {} (splitNl (normalizeDoCaseLines data.data))).1,
      '\n' ∉ x := by
  intro x hx
  obtain ⟨st', r, hr, hxr⟩ := processAll_mem cfg _ _ x hx
  rw [hxr]
  exact outLine_no_nl cfg st' r htab (mem_splitNl_no_nl hr)

theorem splitNl_beautifyString (cfg : Config) (data : String)
    (htab : '\n' ∉ cfg.tabStr) :
    splitNl (beautifyString cfg data).1.data
      = (processAll cfg {} (splitNl (normalizeDoCaseLines data.data))).1 := by
  rw [beautifyString_fst]
  exact splitNl_joinNl
    (processAll_ne_nil cfg _ (splitNl_ne_nil _))
    (beautifyLines_no_nl cfg data htab)

/-!  The last normalized line against the last raw line. -/

theorem getLast?_map_normLine :
    ∀ (L : List (List Char)), (L.map normLine).getLast?
      = L.getLast?.map normLine := by
  intro L
  induction L with
  | nil => rfl
  | cons a rest ih =>
    cases rest with
    | nil => rfl
    | cons b M =>
      rw [List.map_cons, getLast?_cons_ne (by simp), getLast?_cons_ne (by simp)]
      exact ih

theorem flatten_normLine_last (L0 : List (List Char)) (hne : L0 ≠ []) :
    ∃ rl llast, ((L0.map normLine).flatten).getLast? = some rl ∧
      L0.getLast? = some llast ∧
      ((2 ≤ (L0.map normLine).flatten.length ∧ AllWs rl) ↔
        (2 ≤ L0.length ∧ AllWs llast)) := by
  have hMne : L0.map normLine ≠ [] := by
    intro hc
    exact hne (List.map_eq_nil_iff.mp hc)
  have hMel : ∀ x ∈ L0.map normLine, x ≠ [] := by
    intro x hx
    obtain ⟨p, hp, hpx⟩ := List.mem_map.mp hx
    rw [← hpx]
    exact normLine_ne_nil p
  obtain ⟨m, hm1, hm2⟩ := getLast?_flatten_of_ne_nil hMne hMel
  rw [getLast?_map_normLine] at hm1
  obtain ⟨llast, hlast⟩ := Option.ne_none_iff_exists'.mp (getLast?_ne_none hne)
  rw [hlast] at hm1
  simp only [Option.map_some'] at hm1
  have hmn : m = normLine llast := (Option.some_inj.mp hm1).symm
  obtain ⟨rl, hrl⟩ := Option.ne_none_iff_exists'.mp
    (getLast?_ne_none (l := m) (by rw [hmn]; exact normLine_ne_nil llast))
  refine ⟨rl, llast, by rw [hm2, hrl], hlast, ?_⟩
  have hstrip : pyStrip rl = [] ↔ AllWs llast := by
    apply normLine_getLast?_strip
    rw [← hmn]
    exact hrl
  have hAll : AllWs rl ↔ AllWs llast := by
    rw [← hstrip]
    exact Iff.symm pyStrip_eq_nil_iff
  constructor
  · rintro ⟨hlen, hws⟩
    refine ⟨?_, hAll.mp hws⟩
    by_contra hlt
    push_neg at hlt
    have h1 : L0.length = 1 := by
      have := List.length_pos.mpr hne
      omega
    obtain ⟨a, ha⟩ := List.length_eq_one.mp h1
    rw [ha] at hlast hlen
    have haL : a = llast := by simpa using hlast
    rw [haL, List.map_cons, List.map_nil,
      normLine_of_allws (hAll.mp hws)] at hlen
    simp at hlen
  · rintro ⟨hlen, hws⟩
    refine ⟨?_, hAll.mpr hws⟩
    calc 2 ≤ L0.length := hlen
      _ = (L0.map normLine).length := (List.length_map _ _).symm
      _ ≤ (L0.map normLine).flatten.length := length_le_length_flatten hMel

/-!  When the output of the line engine ends with a newline. -/

theorem endsWithNl_beautifyString_iff (cfg : Config) (data : String)
    (htab : '\n' ∉ cfg.tabStr) :
    endsWithNl (beautifyString cfg data).1 = true ↔
      (2 ≤ (splitNl data.data).length ∧
        ∃ x, (splitNl data.data).getLast? = some x ∧ AllWs x) := by
  have h0 : endsWithNl (beautifyString cfg data).1
      = ((joinNl (processAll cfg {}
          (splitNl (normalizeDoCaseLines data.data))).1).getLast? == some '\n') := rfl
  rw [h0, beq_iff_eq,
    getLast?_joinNl_nl (beautifyLines_no_nl cfg data htab),
    processAll_length]
  obtain ⟨rl, llast, hrl, hllast, hiff⟩ :=
    flatten_normLine_last (splitNl data.data) (splitNl_ne_nil _)
  rw [← normalizeDoCaseLines_splitNl] at hrl
  obtain ⟨st', hP⟩ := processAll_getLast? cfg
    (splitNl (normalizeDoCaseLines data.data)) {} rl hrl
  rw [hP, normalizeDoCaseLines_splitNl]
  constructor
  · rintro ⟨hlen, heq⟩
    have hws : AllWs rl :=
      (outLine_nil_iff cfg st' rl).mp (Option.some_inj.mp heq)
    obtain ⟨h2, hwl⟩ := hiff.mp ⟨hlen, hws⟩
    exact ⟨h2, llast, hllast, hwl⟩
  · rintro ⟨hlen, x, hx, hwx⟩
    have hxl : x = llast := by
      rw [hllast] at hx
      exact (Option.some_inj.mp hx).symm
    obtain ⟨hflen, hws⟩ := hiff.mpr ⟨hlen, hxl ▸ hwx⟩
    exact ⟨hflen, by
      rw [Option.some_inj]
      exact (outLine_nil_iff cfg st' rl).mpr hws⟩

/-!  The heredoc pass-through of the line engine: while in a heredoc the
line passes through right-stripped, and the heredoc closes exactly when
the terminator string occurs inside the test record with no << in it. -/

theorem processLine_inHereDoc (cfg : Config) (st : FormatterState) (r t : List Char)
    (h1 : st.inMultilineString = false) (h2 : st.inHereDoc = true)
    (h3 : st.continueLine = false) (h4 : st.startedMultilineQuotedString = false)
    (h5 : pyStrip r ≠ [])
    (ht : t = getTestRecord (if st.caseLevel ≠ 0 then
      spaceSemisFix (pyStrip (pyRstrip r)) else pyStrip (pyRstrip r)))
    (hq1 : (detectUnclosedQuote t).1 = false)
    (hq2 : (detectUnclosedQuote t).2 = false) :
    (processLine cfg st r).1 = pyRstrip r ∧
      ((processLine cfg st r).2.inHereDoc = false ↔
        (hasInfix t st.hereString = true ∧ hasInfix t "<<".data = false)) := by
  have h5' : pyStrip (pyRstrip r) ≠ [] := by rw [pyStrip_pyRstrip]; exact h5
  obtain ⟨tab, cl, plc, cont0, smq, emq, ob, ihd, ims, mqc, hs, fe⟩ := st
  replace h1 : ims = false := h1
  replace h2 : ihd = true := h2
  replace h3 : cont0 = false := h3
  replace h4 : smq = false := h4
  subst h1 h2 h3 h4
  replace ht : t = getTestRecord (if cl ≠ 0 then
      spaceSemisFix (pyStrip (pyRstrip r)) else pyStrip (pyRstrip r)) := ht
  have hPL : processLine cfg ⟨tab, cl, plc, false, false, emq, ob, true, false, mqc, hs, fe⟩ r
      = processLineQuote cfg (pyRstrip r)
        (if cl ≠ 0 then spaceSemisFix (pyStrip (pyRstrip r)) else pyStrip (pyRstrip r))
        t ⟨tab, cl, plc, false, false, emq, ob, true, false, mqc, hs, fe⟩ := by
    rw [ht]
    unfold processLine
    simp only
    rw [if_neg h5']
    rfl
  have hQ : processLineQuote cfg (pyRstrip r)
        (if cl ≠ 0 then spaceSemisFix (pyStrip (pyRstrip r)) else pyStrip (pyRstrip r))
        t ⟨tab, cl, plc, false, false, emq, ob, true, false, mqc, hs, fe⟩
      = processLineMain cfg (pyRstrip r)
        (if cl ≠ 0 then spaceSemisFix (pyStrip (pyRstrip r)) else pyStrip (pyRstrip r))
        t ⟨tab, cl, plc, false, false, emq, ob, true, false, mqc, hs, fe⟩ := by
    unfold processLineQuote
    rw [if_neg (by simp [hq1, hq2])]
  rw [hPL, hQ]
  unfold processLineMain processLineMid
  simp only [Bool.and_false, Bool.false_and, Bool.or_false, Bool.false_or,
    Bool.true_or, Bool.or_true, Bool.false_eq_true, if_false, if_true,
    eq_self_iff_true]
  constructor
  · trivial
  · by_cases hc : (hasInfix t hs && !hasInfix t "<<".data) = true
    · have hc' : hasInfix t hs = true ∧ hasInfix t "<<".data = false := by
        simpa using hc
      simp only [hc, eq_self_iff_true, if_true]
      exact iff_of_true trivial hc'
    · have hcf : (hasInfix t hs && !hasInfix t "<<".data) = false :=
        Bool.eq_false_iff.mpr hc
      simp only [hcf, Bool.false_eq_true, if_false]
      refine iff_of_false (by simp) ?_
      rintro ⟨ha, hb⟩
      exact hc (by simp [ha, hb])

/-!  Character-class facts used by the heredoc preprocessor. -/

theorem isAlphaUs_ne {c : Char} (h : isAlphaUs c = true) :
    c ≠ '-' ∧ c ≠ ' ' ∧ c ≠ '\t' ∧ c ≠ '\'' ∧ c ≠ '"' := by
  refine ⟨?_, ?_, ?_, ?_, ?_⟩ <;>
    (intro he; rw [he] at h; exact absurd h (by decide))

theorem isWordC_not_pySpace {c : Char} (h : isWordC c = true) :
    isPySpace c = false := by
  by_contra hc
  simp only [Bool.not_eq_false] at hc
  have hc' : c = ' ' ∨ c = '\t' ∨ c = '\n' ∨ c = '\r' ∨ c = '\x0b' ∨ c = '\x0c' := by
    unfold isPySpace at hc
    simpa [or_assoc] using hc
  rcases hc' with h' | h' | h' | h' | h' | h' <;>
    (rw [h'] at h; exact absurd h (by decide))

theorem dropWhile_eq_self_of {p : Char → Bool} :
    ∀ {l : List Char}, (∀ c ∈ l, p c = false) → l.dropWhile p = l := by
  intro l h
  cases l with
  | nil => rfl
  | cons a as => rw [List.dropWhile_cons, if_neg (by simp [h a (by simp)])]

theorem takeWhile_eq_self_of {p : Char → Bool} :
    ∀ {l : List Char}, (∀ c ∈ l, p c = true) → l.takeWhile p = l := by
  intro l
  induction l with
  | nil => intro; rfl
  | cons a as ih =>
    intro h
    rw [List.takeWhile_cons, if_pos (h a (by simp)),
      ih (fun c hc => h c (List.mem_cons_of_mem a hc))]

theorem pyStrip_eq_self {l : List Char} (h : ∀ c ∈ l, isPySpace c = false) :
    pyStrip l = l := by
  unfold pyStrip pyRstrip pyLstrip
  rw [dropWhile_eq_self_of (fun c hc => h c (List.mem_reverse.mp hc)),
    List.reverse_reverse, dropWhile_eq_self_of h]

/-!  The termination line test and the collection loop of the heredoc
preprocessor. -/

theorem heredocTermLine_self {D : List Char} (hD : ∀ c ∈ D, isWordC c = true) :
    heredocTermLine false D D = true := by
  unfold heredocTermLine
  rw [if_neg (by simp)]
  exact decide_eq_true (pyStrip_eq_self (fun c hc => isWordC_not_pySpace (hD c hc)))

theorem heredocTermLine_false_of_ne {D x : List Char} (h : pyStrip x ≠ D) :
    heredocTermLine false D x = false := by
  unfold heredocTermLine
  rw [if_neg (by simp)]
  exact decide_eq_false h

theorem collectHeredoc_split (strip : Bool) (D t : List Char)
    (ht : heredocTermLine strip D t = true) :
    ∀ (pre post : List (List Char)),
      (∀ x ∈ pre, heredocTermLine strip D x = false) →
      collectHeredoc strip D (pre ++ t :: post) = (pre, post) := by
  intro pre
  induction pre with
  | nil =>
    intro post _
    rw [List.nil_append, collectHeredoc, if_pos ht]
  | cons a as ih =>
    intro post hpre
    have ha : heredocTermLine strip D a = false := hpre a (by simp)
    rw [List.cons_append, collectHeredoc, if_neg (by simp [ha]),
      ih post (fun x hx => hpre x (List.mem_cons_of_mem a hx))]

/-!  The marker match and the search over a cat-heredoc line. -/

theorem heredocMarkerAt_marker {d : Char} {rest : List Char}
    (hda : isAlphaUs d = true) (hall : ∀ c ∈ d :: rest, isWordC c = true) :
    heredocMarkerAt ('<' :: '<' :: d :: rest) = some (false, d :: rest) := by
  obtain ⟨h1, h2, h3, h4, h5⟩ := isAlphaUs_ne hda
  unfold heredocMarkerAt
  rw [if_pos (show ("<<".data.isPrefixOf ('<' :: '<' :: d :: rest)) = true from rfl)]
  simp only
  have hstrip : decide ((('<' :: '<' :: d :: rest).drop 2).head? = some '-') = false := by
    refine decide_eq_false ?_
    intro hc
    have hd : d = '-' := by simpa using hc
    exact h1 hd
  rw [hstrip]
  show heredocNameAt false
    ((d :: rest).dropWhile (fun c => decide (c = ' ' ∨ c = '\t'))) = some (false, d :: rest)
  have hdw : (d :: rest).dropWhile (fun c => decide (c = ' ' ∨ c = '\t')) = d :: rest := by
    rw [List.dropWhile_cons, if_neg (by simp [h2, h3])]
  rw [hdw, heredocNameAt]
  unfold heredocNameCons
  rw [if_neg (by simp [h4, h5]), if_pos hda, takeWhile_eq_self_of hall]

theorem heredocMarkerSearch_cat {d : Char} {rest : List Char}
    (hmk : heredocMarkerAt ('<' :: '<' :: d :: rest) = some (false, d :: rest)) :
    heredocMarkerSearch none ("cat <<".data ++ d :: rest) = some (false, d :: rest) := by
  show (match heredocMarkerAt ('<' :: '<' :: d :: rest) with
    | some r => some r
    | none => heredocMarkerSearch (some '<') ('<' :: d :: rest)) = some (false, d :: rest)
  rw [hmk]

/-!  Stepping the preprocessor. -/

theorem preprocessHeredocsGo_nil (acc : List (List Char × List Char)) (fuel : Nat) :
    preprocessHeredocsGo acc fuel [] = ([], acc) := by
  cases fuel <;> rfl

theorem preprocessHeredocsGo_cons_found {line : List Char} {sd : Bool × List Char}
    (acc : List (List Char × List Char)) (fuel : Nat) (rest : List (List Char))
    (h : heredocMarkerSearch none line = some sd) :
    preprocessHeredocsGo acc (fuel + 1) (line :: rest)
      = (line :: (preprocessHeredocsGo
            (tableInsert acc sd.2 (joinNl (collectHeredoc sd.1 sd.2 rest).1))
            fuel (collectHeredoc sd.1 sd.2 rest).2).1,
          (preprocessHeredocsGo
            (tableInsert acc sd.2 (joinNl (collectHeredoc sd.1 sd.2 rest).1))
            fuel (collectHeredoc sd.1 sd.2 rest).2).2) := by
  rw [preprocessHeredocsGo, h]

theorem preprocessHeredocsGo_cons_none {line : List Char}
    (acc : List (List Char × List Char)) (fuel : Nat) (rest : List (List Char))
    (h : heredocMarkerSearch none line = none) :
    preprocessHeredocsGo acc (fuel + 1) (line :: rest)
      = (line :: (preprocessHeredocsGo acc fuel rest).1,
          (preprocessHeredocsGo acc fuel rest).2) := by
  rw [preprocessHeredocsGo, h]

/-!  The captured body of the single cat heredoc. -/

theorem catHeredocBody_eq (b D : List Char) (hD : isValidName D = true)
    (hb : ∀ x ∈ splitNl b, pyStrip x ≠ D) :
    catHeredocBody b D = some b := by
  cases D with
  | nil => exact absurd hD (by decide)
  | cons d rest =>
    have hda : isAlphaUs d = true := by
      unfold isValidName at hD
      exact (Bool.and_eq_true_iff.mp hD).1
    have hall : ∀ c ∈ d :: rest, isWordC c = true := by
      have h2 := (Bool.and_eq_true_iff.mp hD).2
      intro c hc
      exact List.all_eq_true.mp h2 c hc
    have hterm : heredocTermLine false (d :: rest) (d :: rest) = true :=
      heredocTermLine_self hall
    have hcol : collectHeredoc false (d :: rest)
        (splitNl b ++ (d :: rest) :: [[]]) = (splitNl b, [[]]) :=
      collectHeredoc_split false (d :: rest) (d :: rest) hterm (splitNl b) [[]]
        (fun x hx => heredocTermLine_false_of_ne (hb x hx))
    have hsearch : heredocMarkerSearch none ("cat <<".data ++ d :: rest)
        = some (false, d :: rest) :=
      heredocMarkerSearch_cat (heredocMarkerAt_marker hda hall)
    show tableLookup (preprocessHeredocsGo []
        ((splitNl b ++ (d :: rest) :: [[]]).length + 1)
        (("cat <<".data ++ d :: rest) :: (splitNl b ++ (d :: rest) :: [[]]))).2
        (d :: rest) = some b
    rw [preprocessHeredocsGo_cons_found _ _ _ hsearch]
    show tableLookup (preprocessHeredocsGo
        (tableInsert [] (d :: rest)
          (joinNl (collectHeredoc false (d :: rest)
            (splitNl b ++ (d :: rest) :: [[]])).1))
        (splitNl b ++ (d :: rest) :: [[]]).length
        (collectHeredoc false (d :: rest) (splitNl b ++ (d :: rest) :: [[]])).2).2
        (d :: rest) = some b
    rw [hcol]
    show tableLookup (preprocessHeredocsGo
        (tableInsert [] (d :: rest) (joinNl (splitNl b)))
        (splitNl b ++ (d :: rest) :: [[]]).length [[]]).2 (d :: rest) = some b
    rw [joinNl_splitNl]
    have hfuel : (splitNl b ++ (d :: rest) :: [[]]).length
        = ((splitNl b).length + 1) + 1 := by
      rw [List.length_append]
      rfl
    rw [hfuel, preprocessHeredocsGo_cons_none _ _ _
      (show heredocMarkerSearch none ([] : List Char) = none from rfl),
      preprocessHeredocsGo_nil]
    show tableLookup (tableInsert [] (d :: rest) b) (d :: rest) = some b
    unfold tableInsert tableLookup
    rw [if_pos rfl]

/-!  Facts about the parameter-expansion rendering of the visitor. -/

theorem isDigit_false_of_alphaUs {d : Char} (h : isAlphaUs d = true) :
    d.isDigit = false := by
  have h' : d.isAlpha = true ∨ d = '_' := by
    unfold isAlphaUs at h
    simpa using h
  rcases h' with ha | hu
  · unfold Char.isDigit
    unfold Char.isAlpha Char.isUpper Char.isLower at ha
    simp only [Bool.or_eq_true, Bool.and_eq_true, decide_eq_true_eq] at ha
    simp only [Bool.and_eq_false_iff, decide_eq_false_iff_not]
    rcases ha with ⟨h1, h2⟩ | ⟨h1, h2⟩
    · right
      intro hcon
      exact absurd (UInt32.le_trans h1 hcon) (by decide)
    · right
      intro hcon
      exact absurd (UInt32.le_trans h1 hcon) (by decide)
  · subst hu
    rfl

theorem isAlphaUs_ne_special {c : Char} (h : isAlphaUs c = true) :
    c ≠ '?' ∧ c ≠ '@' ∧ c ≠ '*' ∧ c ≠ '#' ∧ c ≠ '$' ∧ c ≠ '!' ∧ c ≠ '-' := by
  refine ⟨?_, ?_, ?_, ?_, ?_, ?_, ?_⟩ <;>
    (intro he; rw [he] at h; exact absurd h (by decide))

theorem isSpecialParam_false_of_alphaUs {d : Char} (rest : List Char)
    (h : isAlphaUs d = true) : isSpecialParam (d :: rest) = false := by
  obtain ⟨h1, h2, h3, h4, h5, h6, h7⟩ := isAlphaUs_ne_special h
  have hdig := isDigit_false_of_alphaUs h
  unfold isSpecialParam
  rw [Bool.or_eq_false_iff]
  constructor
  · refine decide_eq_false ?_
    intro hm
    simp only [List.mem_cons, List.not_mem_nil, or_false, List.cons.injEq] at hm
    rcases hm with ⟨hm, _⟩ | ⟨hm, _⟩ | ⟨hm, _⟩ | ⟨hm, _⟩ | ⟨hm, _⟩ | ⟨hm, _⟩ | ⟨hm, _⟩ <;>
      first
        | exact h1 hm
        | exact h2 hm
        | exact h3 hm
        | exact h4 hm
        | exact h5 hm
        | exact h6 hm
        | exact h7 hm
  · simp [List.all_cons, hdig]

theorem visitParameterExpansion_braces {d : Char} (ds : List Char)
    (h : isAlphaUs d = true) :
    visitParameterExpansion (some .braces) (d :: ds) false [] []
      = '$' :: '{' :: ((d :: ds) ++ ['}']) := by
  unfold visitParameterExpansion
  simp only
  rw [if_pos (Or.inr ⟨by simp, by simp,
      by simp [isSpecialParam_false_of_alphaUs ds h]⟩),
    if_neg (by simp), if_neg (by simp)]

theorem visitParameterExpansion_special (nm : List Char)
    (h : isSpecialParam nm = true) :
    visitParameterExpansion (some .braces) nm false [] [] = '$' :: nm := by
  unfold visitParameterExpansion
  simp only
  rw [if_neg ?hc]
  case hc =>
    rintro (hf | ⟨_, _, hns⟩)
    · exact absurd hf (by simp)
    · exact hns (by simp [h])

theorem visitParameterExpansion_braced (style : Option VariableStyle)
    (name op arg : List Char) :
    visitParameterExpansion style name true op arg
      = if op ≠ [] ∧ arg ≠ [] then
          '$' :: '{' :: (name ++ op ++ arg ++ ['}'])
        else if op ≠ [] then '$' :: '{' :: (name ++ op ++ ['}'])
        else '$' :: '{' :: (name ++ ['}']) := by
  unfold visitParameterExpansion
  simp only
  rw [if_pos (Or.inl (by simp))]

theorem simpleVarSubGo_braced_id :
    ∀ (fuel : Nat) (l : List Char), noUnbracedDollar l = true →
      simpleVarSubGo fuel l = l := by
  intro fuel
  induction fuel with
  | zero =>
    intro l _
    cases l <;> rfl
  | succ f ih =>
    intro l h
    cases l with
    | nil => rfl
    | cons c rest =>
      by_cases hc : c = '$'
      · subst hc
        cases rest with
        | nil =>
          rw [noUnbracedDollar, if_pos rfl] at h
          exact absurd h (by decide)
        | cons d ds =>
          rw [noUnbracedDollar, if_pos rfl] at h
          simp only [Bool.and_eq_true, decide_eq_true_eq] at h
          obtain ⟨hd, hrest⟩ := h
          simp only [simpleVarSubGo]
          rw [if_pos trivial, if_pos hd, ih (d :: ds) hrest]
      · cases rest with
        | nil =>
          simp only [simpleVarSubGo]
          rw [if_neg hc]
        | cons d ds =>
          rw [noUnbracedDollar, if_neg hc] at h
          simp only [simpleVarSubGo]
          rw [if_neg hc, ih (d :: ds) h]

theorem applyVariableStyle_braced_id (l : List Char)
    (h : noUnbracedDollar l = true) :
    applyVariableStyle (some "braces") l = l := by
  unfold applyVariableStyle simpleVarSub
  rw [if_pos rfl]
  exact simpleVarSubGo_braced_id l.length l h

/-!  Facts about the heredoc rendering of the visitor. -/

theorem formatHeredocContent_quoted (hd : HereDocNode) (h : hd.quoted = true) :
    formatHeredocContent (some .braces) hd
      = hd.content ++ '\n' :: hd.delimiter := by
  unfold formatHeredocContent
  rw [if_neg ?hc]
  case hc =>
    rintro ⟨_, hnq⟩
    exact hnq (by simp [h])

theorem formatHeredocContent_unquoted (hd : HereDocNode) (h : hd.quoted = false) :
    formatHeredocContent (some .braces) hd
      = transformVariablesInText hd.content ++ '\n' :: hd.delimiter := by
  unfold formatHeredocContent
  rw [if_pos ⟨rfl, by simp [h]⟩]

/-!  The claims. -/

/-- C1: the specification states that a failed format returns the original
input unchanged, byte for byte, together with had_error = true.  Refuted:
on the spec's own example, an unterminated compound command with a missing
fi, the error flag is set but the returned text differs from the input —
the line after then has been indented. -/
theorem C1_counterexample :
    (beautifyString defaultConfig "if true; then\necho hi").2 = true ∧
      (beautifyString defaultConfig "if true; then\necho hi").1
        ≠ "if true; then\necho hi" := by decide

/-- C1 (amended): on an input on which formatting fails — an unterminated
compound command with a missing fi — beautify_string returns the fully
processed, partially formatted text (the body indented one level) together
with had_error = true; the original text is not restored. -/
theorem C1_failed_format_returns_processed_text :
    beautifyString defaultConfig "if true; then\necho hi"
      = ("if true; then\n    echo hi", true) := by decide

/-- C2: formatting is not idempotent.  On the error-free input
case a in / x;;;; / esac the first pass emits x ;;;; (the double-semicolon
fix applied once, before the change can be seen by its own search), and a
second pass over that output emits x ; ;;; — the regex matches the
once-shifted run again.  The repository's own property test asserts
idempotence, so this is a bug in the code, not in the spec alone. -/
theorem C2_not_idempotent :
    (beautifyString defaultConfig "case a in\nx;;;;\nesac").2 = false ∧
      (beautifyString defaultConfig
          (beautifyString defaultConfig "case a in\nx;;;;\nesac").1).1
        ≠ (beautifyString defaultConfig "case a in\nx;;;;\nesac").1 := by decide

/-- C3: the specification states that a heredoc body is reproduced exactly
for every body b and delimiter D.  Refuted twice: the line engine
right-strips every line, so a body line with trailing whitespace loses it;
and the AST preprocessor ends the body at the first line that merely
strips to the delimiter, so the body consisting of the single line
two-spaces-EOF is captured as empty. -/
theorem C3_counterexample :
    beautifyString defaultConfig "cat <<EOF\nx \nEOF"
        = ("cat <<EOF\nx\nEOF", false) ∧
      catHeredocBody "  EOF".data "EOF".data = some [] := by decide

/-- C3 (amended): for a valid delimiter name D and any body b none of
whose lines strips to D, the heredoc preprocessor captures the body of
cat-heredoc-b-D exactly, byte for byte, with zero added indentation. -/
theorem C3_heredoc_body_exact (b D : List Char) (hD : isValidName D = true)
    (hb : ∀ x ∈ splitNl b, pyStrip x ≠ D) :
    catHeredocBody b D = some b :=
  catHeredocBody_eq b D hD hb

/-- C3 witness: the amended statement at the body two-spaces-x, blank
line, y-space-z and the delimiter EOF. -/
theorem C3_witness :
    isValidName "EOF".data = true ∧
      (∀ x ∈ splitNl "  x\n\ny z".data, pyStrip x ≠ "EOF".data) ∧
      catHeredocBody "  x\n\ny z".data "EOF".data = some "  x\n\ny z".data :=
  ⟨by decide, by decide, C3_heredoc_body_exact _ _ (by decide) (by decide)⟩

/-- C4: the specification states that a heredoc ends exactly at the first
line equal to the delimiter (tab-stripped under left-shift-dash) and that
a line merely containing the delimiter does not end it.  Refuted: in the
line engine the body line aEOFb ends the heredoc — the following lines are
formatted, visible in the indented echo — and in the AST preprocessor the
line two-spaces-EOF, not equal to the delimiter, ends the body at once. -/
theorem C4_counterexample :
    beautifyString defaultConfig "cat <<EOF\naEOFb\nif true; then\necho hi\nfi\nEOF"
        = ("cat <<EOF\naEOFb\nif true; then\n    echo hi\nfi\nEOF", false) ∧
      collectHeredoc false "EOF".data ["  EOF".data, "body".data]
        = ([], ["body".data]) := by decide

/-- C4 (amended): the two real termination rules.  Line engine: while in
a heredoc a line passes through right-stripped, and the heredoc ends
exactly when the terminator string occurs anywhere inside the line's test
record with no left-shift marker in it.  AST preprocessor: the collection
loop ends exactly at the first line that strips to the delimiter
(tab-stripped first under the strip flag), that line dropped. -/
theorem C4_heredoc_termination :
    (∀ (cfg : Config) (st : FormatterState) (r t : List Char),
        st.inMultilineString = false → st.inHereDoc = true →
        st.continueLine = false → st.startedMultilineQuotedString = false →
        pyStrip r ≠ [] →
        t = getTestRecord (if st.caseLevel ≠ 0 then
          spaceSemisFix (pyStrip (pyRstrip r)) else pyStrip (pyRstrip r)) →
        (detectUnclosedQuote t).1 = false → (detectUnclosedQuote t).2 = false →
        (processLine cfg st r).1 = pyRstrip r ∧
          ((processLine cfg st r).2.inHereDoc = false ↔
            (hasInfix t st.hereString = true ∧ hasInfix t "<<".data = false))) ∧
    (∀ (strip : Bool) (D t : List Char) (pre post : List (List Char)),
        heredocTermLine strip D t = true →
        (∀ x ∈ pre, heredocTermLine strip D x = false) →
        collectHeredoc strip D (pre ++ t :: post) = (pre, post)) :=
  ⟨fun cfg st r t h1 h2 h3 h4 h5 ht hq1 hq2 =>
      processLine_inHereDoc cfg st r t h1 h2 h3 h4 h5 ht hq1 hq2,
    fun strip D t pre post ht hpre => collectHeredoc_split strip D t ht pre post hpre⟩

/-- C4 witness: both parts at concrete inputs — a heredoc state fed the
line foo-EOF-bar, whose test record holds the terminator and no marker,
and a collection over the lines x, EOF, y. -/
theorem C4_witness :
    (processLine defaultConfig
        { inHereDoc := true, hereString := "EOF".data } "foo EOF bar".data).1
        = pyRstrip "foo EOF bar".data ∧
    ((processLine defaultConfig
        { inHereDoc := true, hereString := "EOF".data } "foo EOF bar".data).2.inHereDoc
          = false ↔
      (hasInfix (getTestRecord "foo EOF bar".data) "EOF".data = true ∧
        hasInfix (getTestRecord "foo EOF bar".data) "<<".data = false)) ∧
    collectHeredoc false "EOF".data ["x".data, "EOF".data, "y".data]
        = (["x".data], ["y".data]) :=
  ⟨(C4_heredoc_termination.1 defaultConfig
      { inHereDoc := true, hereString := "EOF".data } "foo EOF bar".data
      (getTestRecord "foo EOF bar".data) rfl rfl rfl rfl (by decide) (by decide)
      (by decide) (by decide)).1,
   (C4_heredoc_termination.1 defaultConfig
      { inHereDoc := true, hereString := "EOF".data } "foo EOF bar".data
      (getTestRecord "foo EOF bar".data) rfl rfl rfl rfl (by decide) (by decide)
      (by decide) (by decide)).2,
   C4_heredoc_termination.2 false "EOF".data "EOF".data ["x".data] ["y".data]
      (by decide) (by decide)⟩

/-- C5: under the forced brace style the visitor rewrites every unbraced
simple expansion whose name is led by a letter or underscore to braced
form and leaves every special or numeric parameter unchanged; an
already-braced expansion keeps its braces, operator and argument under
every style; the line engine leaves any line whose expansions are all
braced unchanged; and the two spec examples behave as stated, as does the
braced-with-operator line. -/
theorem C5_braces_variable_style :
    (∀ (d : Char) (ds : List Char), isAlphaUs d = true →
        visitParameterExpansion (some .braces) (d :: ds) false [] []
          = '$' :: '{' :: ((d :: ds) ++ ['}'])) ∧
    (∀ nm : List Char, isSpecialParam nm = true →
        visitParameterExpansion (some .braces) nm false [] [] = '$' :: nm) ∧
    (∀ (style : Option VariableStyle) (name op arg : List Char),
        visitParameterExpansion style name true op arg
          = if op ≠ [] ∧ arg ≠ [] then
              '$' :: '{' :: (name ++ op ++ arg ++ ['}'])
            else if op ≠ [] then '$' :: '{' :: (name ++ op ++ ['}'])
            else '$' :: '{' :: (name ++ ['}'])) ∧
    (∀ l : List Char, noUnbracedDollar l = true →
        applyVariableStyle (some "braces") l = l) ∧
    beautifyString { defaultConfig with variableStyle := some "braces" }
        "echo \"$?\" \"$1\" \"$@\" \"$$\""
      = ("echo \"$?\" \"$1\" \"$@\" \"$$\"", false) ∧
    beautifyString { defaultConfig with variableStyle := some "braces" }
        "echo \"$HOME\"" = ("echo \"${HOME}\"", false) ∧
    beautifyString { defaultConfig with variableStyle := some "braces" }
        "echo \"${HOME}\" \"${HOME:-x}\""
      = ("echo \"${HOME}\" \"${HOME:-x}\"", false) :=
  ⟨fun _ ds h => visitParameterExpansion_braces ds h,
   fun nm h => visitParameterExpansion_special nm h,
   fun style name op arg => visitParameterExpansion_braced style name op arg,
   fun l h => applyVariableStyle_braced_id l h,
   by decide, by decide, by decide⟩

/-- C5 witness: the general parts at the name HOME and the special
parameter at-sign, the braced rendering at a bare and at an
operator-bearing node, and the line-engine invariance at a line with two
braced expansions. -/
theorem C5_witness :
    isAlphaUs 'H' = true ∧ isSpecialParam ['@'] = true ∧
    visitParameterExpansion (some .braces) "HOME".data false [] []
        = '$' :: '{' :: ("HOME".data ++ ['}']) ∧
    visitParameterExpansion (some .braces) ['@'] false [] [] = '$' :: ['@'] ∧
    visitParameterExpansion (some .braces) "HOME".data true [] []
        = '$' :: '{' :: ("HOME".data ++ ['}']) ∧
    visitParameterExpansion (some .braces) "HOME".data true ":-".data "x".data
        = '$' :: '{' :: ("HOME".data ++ ":-".data ++ "x".data ++ ['}']) ∧
    noUnbracedDollar "echo \"${HOME}\" \"${HOME:-x}\"".data = true ∧
    applyVariableStyle (some "braces") "echo \"${HOME}\" \"${HOME:-x}\"".data
        = "echo \"${HOME}\" \"${HOME:-x}\"".data :=
  ⟨by decide, by decide, C5_braces_variable_style.1 'H' "OME".data (by decide),
    C5_braces_variable_style.2.1 ['@'] (by decide),
    (C5_braces_variable_style.2.2.1 (some .braces) "HOME".data [] []).trans
      (by decide),
    (C5_braces_variable_style.2.2.1 (some .braces) "HOME".data ":-".data
      "x".data).trans (by decide),
    by decide,
    C5_braces_variable_style.2.2.2.1 "echo \"${HOME}\" \"${HOME:-x}\"".data
      (by decide)⟩

/-- C6: the specification states the brace rewrite is applied to a heredoc
body iff the terminator was unquoted.  Refuted for the shipped line
engine: it applies apply_variable_style to every output line, including
the body of a single-quoted heredoc, so dollar-HOME inside quoted-EOF is
rewritten to its braced form. -/
theorem C6_counterexample :
    beautifyString { defaultConfig with variableStyle := some "braces" }
        "cat <<'EOF'\n$HOME\nEOF" = ("cat <<'EOF'\n${HOME}\nEOF", false) ∧
      ("cat <<'EOF'\n${HOME}\nEOF" : String) ≠ "cat <<'EOF'\n$HOME\nEOF" := by
  decide

/-- C6 (amended): the AST visitor honours quoting — a quoted heredoc body
is emitted verbatim and an unquoted one is transformed — while the line
engine rewrites even quoted bodies, as the concrete run shows. -/
theorem C6_quoted_heredoc_rewrite :
    (∀ hd : HereDocNode, hd.quoted = true →
        formatHeredocContent (some .braces) hd
          = hd.content ++ '\n' :: hd.delimiter) ∧
    (∀ hd : HereDocNode, hd.quoted = false →
        formatHeredocContent (some .braces) hd
          = transformVariablesInText hd.content ++ '\n' :: hd.delimiter) ∧
    beautifyString { defaultConfig with variableStyle := some "braces" }
        "cat <<'EOF'\n$HOME\nEOF" = ("cat <<'EOF'\n${HOME}\nEOF", false) :=
  ⟨fun hd h => formatHeredocContent_quoted hd h,
   fun hd h => formatHeredocContent_unquoted hd h, by decide⟩

/-- C6 witness: the general parts at a quoted and at an unquoted node
carrying the body dollar-HOME and delimiter EOF. -/
theorem C6_witness :
    ({ delimiter := "EOF".data, content := "$HOME".data,
        quoted := true : HereDocNode }).quoted = true ∧
    formatHeredocContent (some .braces)
        { delimiter := "EOF".data, content := "$HOME".data, quoted := true }
      = "$HOME".data ++ '\n' :: "EOF".data ∧
    formatHeredocContent (some .braces)
        { delimiter := "EOF".data, content := "$HOME".data, quoted := false }
      = transformVariablesInText "$HOME".data ++ '\n' :: "EOF".data :=
  ⟨rfl, C6_quoted_heredoc_rewrite.1 _ rfl, C6_quoted_heredoc_rewrite.2.1 _ rfl⟩

/-- C7: neither an arithmetic left shift nor a here-string is treated as
a heredoc: the detector of the line engine returns not-a-heredoc for both
spec examples, formatting both lines is the identity with no error, and
the marker search of the AST preprocessor finds nothing in either. -/
theorem C7_no_false_heredoc :
    detectHeredoc (getTestRecord "result=$(( x << 2 ))".data)
        "result=$(( x << 2 ))".data = (false, []) ∧
    beautifyString defaultConfig "result=$(( x << 2 ))"
        = ("result=$(( x << 2 ))", false) ∧
    detectHeredoc (getTestRecord "cmd <<<\"$x\"".data) "cmd <<<\"$x\"".data
        = (false, []) ∧
    beautifyString defaultConfig "cmd <<<\"$x\"" = ("cmd <<<\"$x\"", false) ∧
    heredocMarkerSearch none "result=$(( x << 2 ))".data = none ∧
    heredocMarkerSearch none "cmd <<<\"$x\"".data = none := by decide

/-- C8: the specification states the output ends with a newline iff the
input does.  Refuted: the input a-newline-space does not end with a
newline, yet its output a-newline does — the whitespace-only last line is
emitted empty and the join adds a newline before it. -/
theorem C8_counterexample :
    endsWithNl (beautifyString defaultConfig "a\n ").1 = true ∧
      endsWithNl "a\n " = false := by decide

/-- C8 (amended): for an indent string free of newlines, the output of
beautify_string ends with a newline iff the input splits into at least
two lines and its last line is whitespace-only — in particular a trailing
newline (empty last line) is preserved, and the only disagreement with
the original claim is a whitespace-only non-empty last line. -/
theorem C8_trailing_newline_iff (cfg : Config) (data : String)
    (htab : '\n' ∉ cfg.tabStr) :
    endsWithNl (beautifyString cfg data).1 = true ↔
      (2 ≤ (splitNl data.data).length ∧
        ∃ x, (splitNl data.data).getLast? = some x ∧ AllWs x) :=
  endsWithNl_beautifyString_iff cfg data htab

/-- C8 witness: the amended statement under the default configuration at
the newline-terminated input a-newline. -/
theorem C8_witness :
    ('\n' ∉ defaultConfig.tabStr) ∧
    (endsWithNl (beautifyString defaultConfig "a\n").1 = true ↔
      (2 ≤ (splitNl ("a\n" : String).data).length ∧
        ∃ x, (splitNl ("a\n" : String).data).getLast? = some x ∧ AllWs x)) :=
  ⟨by decide, C8_trailing_newline_iff defaultConfig "a\n" (by decide)⟩

/-- C9: converting the keyword-plus-parentheses header to each of the
three styles and converting the result back reproduces the original
header exactly. -/
theorem C9_function_style_roundtrip :
    (changeFunctionStyle
        (changeFunctionStyle "function foo() { :; }".data (some 0) (some 0))
        (detectFunctionStyle
          (changeFunctionStyle "function foo() { :; }".data (some 0) (some 0)))
        (some 0) = "function foo() { :; }".data) ∧
    (changeFunctionStyle
        (changeFunctionStyle "function foo() { :; }".data (some 0) (some 1))
        (detectFunctionStyle
          (changeFunctionStyle "function foo() { :; }".data (some 0) (some 1)))
        (some 0) = "function foo() { :; }".data) ∧
    (changeFunctionStyle
        (changeFunctionStyle "function foo() { :; }".data (some 0) (some 2))
        (detectFunctionStyle
          (changeFunctionStyle "function foo() { :; }".data (some 0) (some 2)))
        (some 0) = "function foo() { :; }".data) := by decide

/-- C10: for an indent string free of newlines, every line of the string
returned by beautify_string carries no trailing whitespace: blank lines
are emitted empty, pass-through lines are right-stripped first, and
indented lines end in their stripped content. -/
theorem C10_no_trailing_whitespace (cfg : Config) (data : String)
    (htab : '\n' ∉ cfg.tabStr) :
    ∀ x ∈ splitNl (beautifyString cfg data).1.data, NoTrailWs x := by
  intro x hx
  rw [splitNl_beautifyString cfg data htab] at hx
  obtain ⟨st', r, _, hxr⟩ := processAll_mem cfg _ _ x hx
  rw [hxr]
  exact outLine_noTrailWs cfg st' r

/-- C10 witness: the statement under the default configuration at a small
script with heredoc-free formatted lines. -/
theorem C10_witness :
    ('\n' ∉ defaultConfig.tabStr) ∧
    ∀ x ∈ splitNl (beautifyString defaultConfig
        "if true; then\necho hi \nfi").1.data, NoTrailWs x :=
  ⟨by decide, C10_no_trailing_whitespace defaultConfig
    "if true; then\necho hi \nfi" (by decide)⟩

end Beautysh
